import Mathlib

/-
Shallow embedding of `demo/predictor.py`.

The core of the program is the class `AsyncPredictor` (an asynchronous,
order-preserving work dispatcher), the parallel branch of
`VisualizationDemo.run_on_video` (the pipeline driver), and
`VisualizationDemo.process_frame`.

Two models are built from the source:

* `AsyncPredictor` (a structure): the dispatcher-local state (`put_idx`,
  `get_idx` and the reorder buffer `result_rank`/`result_data`).  The result
  channel is passed to `AsyncPredictor.get` as an explicit list `stream`: the
  successive values a worker pool delivers through `result_queue.get()`.
  Quantifying over all streams whose ids form a permutation of the submitted
  ids captures every worker completion order.

* `Sys.SysState`: the whole system of `AsyncPredictor.__init__` — the bounded
  task and result channels (`mp.Queue(maxsize=num_workers * 3)`), the worker
  pool (`_PredictWorker.run`), and the dispatcher — with an explicit step
  relation.  A blocked channel operation is a disabled step (`none`).

The code keeps the reorder buffer as two parallel lists `result_rank` and
`result_data`, always mutated at the same index; they are modeled as a single
list `pending` of (rank, datum) pairs, so `result_rank` is `pending.map
Prod.fst` and `result_data` is `pending.map Prod.snd`.
-/

/-- Dispatcher state of `AsyncPredictor` (`__init__`, lines 324-327):
`put_idx = 0`, `get_idx = 0`, and the empty reorder buffer
(`result_rank = []`, `result_data = []`, modeled as the pair list `pending`). -/
structure AsyncPredictor (β : Type) where
  put_idx : Nat := 0
  get_idx : Nat := 0
  pending : List (Nat × β) := []
deriving DecidableEq

namespace AsyncPredictor

/-- Key order on buffer entries: compare sequence ids (`result_rank` order). -/
abbrev keyLt {β : Type} (p q : Nat × β) : Prop := p.1 < q.1

/-- Python's `bisect.bisect` (that is, `bisect_right`) on a sorted list of
keys: the number of elements `≤ x`, i.e. the insertion point to the right of
any elements equal to `x`.  The code only calls it on the sorted
`result_rank`. -/
def bisectRight : List Nat → Nat → Nat
  | [], _ => 0
  | y :: ys, x => if x < y then 0 else bisectRight ys x + 1

/-- One insertion of the reorder loop (`get`, lines 349-351):
`insert = bisect.bisect(self.result_rank, idx)`, then
`result_rank.insert(insert, idx)` and `result_data.insert(insert, res)` —
on the paired representation, inserting the pair at that index. -/
def bufInsert {β : Type} (pending : List (Nat × β)) (p : Nat × β) : List (Nat × β) :=
  pending.insertIdx (bisectRight (pending.map Prod.fst) p.1) p

/-- The `while True` loop of `get` (lines 344-351): pop `(idx, res)` from the
result channel; return `res` when `idx` equals the awaited id, otherwise
insert the pair into the buffer at the bisect position and continue.  An
exhausted stream means `result_queue.get()` blocks forever: `none`. -/
def getLoop {β : Type} (want put_idx : Nat) :
    List (Nat × β) → List (Nat × β) → Option (β × AsyncPredictor β × List (Nat × β))
  | _, [] => none
  | pending, (idx, res) :: rest =>
    if idx = want then some (res, ⟨put_idx, want, pending⟩, rest)
    else getLoop want put_idx (bufInsert pending (idx, res)) rest

/-- `AsyncPredictor.get` (lines 337-351): increment `get_idx` to the awaited
id; if the buffer is nonempty and its first rank equals that id, pop and
return that entry (the stream — the result channel — is untouched); otherwise
run the reorder loop on the stream. -/
def get {β : Type} (s : AsyncPredictor β) (stream : List (Nat × β)) :
    Option (β × AsyncPredictor β × List (Nat × β)) :=
  let want := s.get_idx + 1
  match s.pending with
  | (r, d) :: rest =>
    if r = want then some (d, ⟨s.put_idx, want, rest⟩, stream)
    else getLoop want s.put_idx ((r, d) :: rest) stream
  | [] => getLoop want s.put_idx [] stream

/-- `AsyncPredictor.put` (lines 333-335): increment `put_idx` and emit the
task `(put_idx, image)`; the task goes to the task channel (the channel is
explicit in `Sys.SysState`, and abstracted away in the stream model). -/
def put {β : Type} {α : Type} (s : AsyncPredictor β) (image : α) :
    AsyncPredictor β × (Nat × α) :=
  ({ s with put_idx := s.put_idx + 1 }, (s.put_idx + 1, image))

/-- `AsyncPredictor.__len__` (lines 353-354): `self.put_idx - self.get_idx`
(Python integers, hence the value in `Int`). -/
def len {β : Type} (s : AsyncPredictor β) : Int :=
  (s.put_idx : Int) - (s.get_idx : Int)

/-- Formalizing the spec's cursor `next_submit_id` (the next id `Submit`
would assign): `put` increments `put_idx` and then uses it, so the next
assigned id is `put_idx + 1`. -/
def next_submit_id {β : Type} (s : AsyncPredictor β) : Nat := s.put_idx + 1

/-- Formalizing the spec's cursor `next_expected_id` (the next id the caller
is waiting for): `get` increments `get_idx` and then awaits it, so the next
awaited id is `get_idx + 1`. -/
def next_expected_id {β : Type} (s : AsyncPredictor β) : Nat := s.get_idx + 1

/-- `n` successive calls to `get`, collecting the returned results in call
order and threading the dispatcher state and the unconsumed stream. -/
def runGets {β : Type} : Nat → AsyncPredictor β → List (Nat × β) →
    Option (List β × AsyncPredictor β × List (Nat × β))
  | 0, s, stream => some ([], s, stream)
  | n + 1, s, stream =>
    (get s stream).bind fun (y, s1, stream1) =>
      (runGets n s1 stream1).map fun (ys, s2, stream2) => (y :: ys, s2, stream2)

/-- `n` successive calls to `put` with images `x 1, x 2, ..., x n`. -/
def putSeq {β : Type} {α : Type} (x : Nat → α) : Nat → AsyncPredictor β → AsyncPredictor β
  | 0, s => s
  | n + 1, s => (put (putSeq x n s) (x (n + 1))).1

/-- A stream of results the worker pool can hand to one `get` call: ids are
pairwise distinct, in flight (greater than the last delivered id and at most
the last submitted id) and not already buffered — every pushed result comes
from exactly one dequeued task. -/
def ValidStream {β : Type} (s : AsyncPredictor β) (stream : List (Nat × β)) : Prop :=
  (stream.map Prod.fst).Nodup ∧
    ∀ i ∈ stream.map Prod.fst,
      s.get_idx < i ∧ i ≤ s.put_idx ∧ i ∉ s.pending.map Prod.fst

/-- Dispatcher states reachable from construction by `put` calls and
successful `get` calls fed by valid worker streams. -/
inductive Reachable {β : Type} : AsyncPredictor β → Prop
  | init : Reachable {}
  | putStep {α : Type} (s : AsyncPredictor β) (x : α) :
      Reachable s → Reachable (put s x).1
  | getStep (s : AsyncPredictor β) (stream : List (Nat × β)) (y : β)
      (s1 : AsyncPredictor β) (stream1 : List (Nat × β)) :
      Reachable s → ValidStream s stream → get s stream = some (y, s1, stream1) →
      Reachable s1

end AsyncPredictor

namespace VisualizationDemo

/-- `deque.popleft`: the head and tail of a nonempty FIFO, `none` when empty
(`IndexError` in Python, unreachable in `run_on_video`). -/
def popleft {α : Type} : List α → Option (α × List α)
  | [] => none
  | a :: l => some (a, l)

/-- The drain phase of `run_on_video` (lines 171-174): while the local FIFO
is nonempty, pop the oldest frame, `get()` a prediction, and yield the
processed pair. -/
def drainLoop {α β γ : Type} (proc : α → β → γ) :
    List α → AsyncPredictor β → List (Nat × β) →
    Option (List γ × AsyncPredictor β × List (Nat × β))
  | [], s, stream => some ([], s, stream)
  | frame :: fd, s, stream =>
    (AsyncPredictor.get s stream).bind fun (y, s1, stream1) =>
      (drainLoop proc fd s1 stream1).map fun (out, s2, stream2) =>
        (proc frame y :: out, s2, stream2)

/-- The main loop of `run_on_video` in parallel mode (lines 160-174): for
each frame (0-indexed counter `cnt`), append it to the local FIFO and
`put` it; once `cnt ≥ buffer_size`, also pop the oldest buffered frame,
`get()` one prediction and yield the processed pair.  After input
exhaustion, drain the FIFO. -/
def videoLoop {α β γ : Type} (proc : α → β → γ) (buffer_size : Nat) :
    List α → Nat → List α → AsyncPredictor β → List (Nat × β) →
    Option (List γ × AsyncPredictor β × List (Nat × β))
  | [], _, frame_data, s, stream => drainLoop proc frame_data s stream
  | frame :: frames, cnt, frame_data, s, stream =>
    let frame_data1 := frame_data ++ [frame]
    let s1 := (AsyncPredictor.put s frame).1
    if buffer_size ≤ cnt then
      (popleft frame_data1).bind fun (f0, fd) =>
        (AsyncPredictor.get s1 stream).bind fun (y, s2, stream2) =>
          (videoLoop proc buffer_size frames (cnt + 1) fd s2 stream2).map
            fun (out, s3, stream3) => (proc f0 y :: out, s3, stream3)
    else videoLoop proc buffer_size frames (cnt + 1) frame_data1 s1 stream

/-- `run_on_video`, parallel branch (lines 156-174), on a freshly
constructed dispatcher: counter starts at 0, FIFO empty.  `proc` is the
(external) `process_predictions`; `stream` is the worker pool's result
stream. -/
def run_on_video_parallel {α β γ : Type} (proc : α → β → γ) (buffer_size : Nat)
    (frames : List α) (stream : List (Nat × β)) :
    Option (List γ × AsyncPredictor β × List (Nat × β)) :=
  videoLoop proc buffer_size frames 0 [] {} stream

/-- An axis-aligned box `(x1, y1, x2, y2)` of a predicted instance.
Numeric payloads of the external framework are modeled over `Int`/`Rat`. -/
structure Box where
  x1 : Int
  y1 : Int
  x2 : Int
  y2 : Int
deriving DecidableEq

/-- One predicted instance: its fields `pred_boxes`, `pred_classes`,
`scores`, `pred_masks` (the mask payload is abstract, carried as a `Nat`). -/
structure Instance where
  box : Box
  cls : Nat
  score : Rat
  mask : Nat
deriving DecidableEq

/-- Placeholder instance for indexing (`instances[i]` with `i` drawn from
`range(len(boxes))` is always in range). -/
def dummyInstance : Instance := ⟨⟨0, 0, 0, 0⟩, 0, 0, 0⟩

/-- `Boxes.nonempty(threshold)` of the external framework for a single box:
width and height both strictly greater than the threshold. -/
def boxNonempty (b : Box) (threshold : Int) : Bool :=
  threshold < b.x2 - b.x1 && threshold < b.y2 - b.y1

/-- `class_filter[c]` on the model of a Python dict as an association list:
the score threshold bound to class `c`, if any. -/
def lookupScore (cf : List (Nat × Rat)) (c : Nat) : Option Rat :=
  (cf.find? fun p => p.1 == c).map Prod.snd

/-- The accumulator dict of `run_on_video_rle` (lines 244-250), with keys
`rle_masks`, `raw_masks`, `classes`, `boxes`, `scores`. -/
structure MasksInfo where
  rle_masks : List (List Nat)
  raw_masks : List (List Nat)
  classes : List (List Nat)
  boxes : List (List Box)
  scores : List (List Rat)
deriving DecidableEq

/-- Python exceptions raised by the modeled code: `raise ValueError` at
line 233, and the `AssertionError` that detectron2's `Instances.cat` raises
on an empty argument list. -/
inductive PyError where
  | valueError
  | assertionError
deriving DecidableEq

/-- The index filtering of `process_frame` (lines 205-218):
`idxs = list(range(len(boxes)))`, restricted by `Boxes.nonempty` when
`not_empty_threshold` is truthy, then by class membership and score
threshold when `class_filter` is given. -/
def filteredIdxs (instances : List Instance) (not_empty_threshold : Int)
    (class_filter : Option (List (Nat × Rat))) : List Nat :=
  let idxs := List.range instances.length
  let idxs := if not_empty_threshold ≠ 0 then
      idxs.filter fun i =>
        boxNonempty (instances.getD i dummyInstance).box not_empty_threshold
    else idxs
  match class_filter with
  | none => idxs
  | some cf => idxs.filter fun i =>
      let inst := instances.getD i dummyInstance
      match lookupScore cf inst.cls with
      | some th => decide (th < inst.score)
      | none => false

/-- detectron2's `Instances.cat(instance_lists)`: it asserts
`len(instance_lists) > 0` (raising `AssertionError` on an empty list) and
otherwise concatenates.  `process_frame` passes the singleton-instance list
`[instances[i] for i in idxs]`, whose concatenation is the selection
itself. -/
def instancesCat (l : List Instance) : Except PyError (List Instance) :=
  match l with
  | [] => Except.error PyError.assertionError
  | _ => Except.ok l

/-- `VisualizationDemo.process_frame` (lines 185-238).  `predictions` is
`some instances` when the `"instances"` key is present.  `rle_encode`
abstracts the external run-length encoder; external tensor/device transfers
are identities on the payloads.  `Instances.cat([instances[i] for i in
idxs])` at line 220 runs before any list is appended, so its
`AssertionError` on an empty selection aborts the call. -/
def process_frame (rle_encode : Nat → Nat)
    (predictions : Option (List Instance)) (masks_info_dict : MasksInfo)
    (not_empty_threshold : Int) (class_filter : Option (List (Nat × Rat))) :
    Except PyError MasksInfo :=
  match predictions with
  | some instances =>
    let idxs := filteredIdxs instances not_empty_threshold class_filter
    match instancesCat (idxs.map fun i => instances.getD i dummyInstance) with
    | Except.error e => Except.error e
    | Except.ok instances2 =>
      let rle_encoded_frame := (instances2.map Instance.mask).map rle_encode
      Except.ok { masks_info_dict with
        rle_masks := masks_info_dict.rle_masks ++ [rle_encoded_frame]
        classes := masks_info_dict.classes ++ [instances2.map Instance.cls]
        boxes := masks_info_dict.boxes ++ [instances2.map Instance.box]
        scores := masks_info_dict.scores ++ [instances2.map Instance.score] }
  | none => Except.error PyError.valueError

end VisualizationDemo

namespace Sys

/-- An element of the task channel: a `(idx, image)` pair or a
`_StopToken`. -/
inductive PyTask (α : Type) where
  | job : Nat → α → PyTask α
  | stopToken : PyTask α
deriving DecidableEq

/-- A `_PredictWorker`: idle between tasks, busy on a dequeued `(idx,
data)`, or terminated after dequeuing a stop token. -/
inductive WorkerState (α : Type) where
  | idle : WorkerState α
  | busy : Nat → α → WorkerState α
  | stopped : WorkerState α
deriving DecidableEq

/-- The whole system built by `AsyncPredictor.__init__` (lines 308-331):
the two bounded channels with their capacities, the worker pool, and the
dispatcher state. -/
structure SysState (α β : Type) where
  task_capacity : Nat
  result_capacity : Nat
  task_queue : List (PyTask α)
  result_queue : List (Nat × β)
  procs : List (WorkerState α)
  disp : AsyncPredictor β
deriving DecidableEq

/-- `AsyncPredictor.__init__(cfg, num_gpus)`: `num_workers = max(num_gpus,
1)`, both channels bounded by `num_workers * 3`, one worker per
`gpuid in range(max(num_gpus, 1))`, all started idle, and the dispatcher
counters and buffer zeroed. -/
def sysInit {α β : Type} (num_gpus : Nat) : SysState α β :=
  { task_capacity := max num_gpus 1 * 3
    result_capacity := max num_gpus 1 * 3
    task_queue := []
    result_queue := []
    procs := List.replicate (max num_gpus 1) WorkerState.idle
    disp := {} }

/-- `AsyncPredictor.default_buffer_size` (lines 364-366):
`len(self.procs) * 5`. -/
def default_buffer_size {α β : Type} (s : SysState α β) : Nat :=
  s.procs.length * 5

/-- One schedulable event of the system: a `put` call by the driver, a
worker dequeuing a task, a worker completing its task and pushing the
result, a `get` call by the driver, or a `shutdown` call. -/
inductive SysAct (α : Type) where
  | put : α → SysAct α
  | take : Nat → SysAct α
  | finish : Nat → SysAct α
  | getRes : SysAct α
  | shutdown : SysAct α

/-- Sequence ids currently held in the task channel (stop tokens carry
none). -/
def taskIds {α : Type} (q : List (PyTask α)) : List Nat :=
  q.filterMap fun t => match t with
    | PyTask.job i _ => some i
    | PyTask.stopToken => none

/-- Sequence ids currently held by busy workers. -/
def workerIds {α : Type} (ps : List (WorkerState α)) : List Nat :=
  ps.filterMap fun w => match w with
    | WorkerState.busy i _ => some i
    | _ => none

/-- Ghost observer: every sequence id currently in flight — in the task
channel, held by a busy worker, in the result channel, or in the reorder
buffer. -/
def inFlightIds {α β : Type} (s : SysState α β) : List Nat :=
  taskIds s.task_queue ++ workerIds s.procs ++ s.result_queue.map Prod.fst ++
    s.disp.pending.map Prod.fst

/-- The small-step semantics.  `f` is the opaque prediction function
(`predictor(data)` in `_PredictWorker.run`).  A step is `none` when its
guard fails: a full channel blocks the sender, an empty channel blocks the
receiver (`none` from the inner `get`), a worker can only dequeue when idle
and only push when busy.  `shutdown` puts one stop token per worker into
the task channel (lines 360-362); the call is modeled as enabled only when
all its tokens fit. -/
def step {α β : Type} (f : α → β) (s : SysState α β) : SysAct α → Option (SysState α β)
  | SysAct.put image =>
    if s.task_queue.length < s.task_capacity then
      let r := AsyncPredictor.put s.disp image
      some { s with disp := r.1, task_queue := s.task_queue ++ [PyTask.job r.2.1 r.2.2] }
    else none
  | SysAct.take w =>
    match s.procs[w]?, s.task_queue with
    | some WorkerState.idle, t :: rest =>
      match t with
      | PyTask.job i x =>
        some { s with task_queue := rest, procs := s.procs.set w (WorkerState.busy i x) }
      | PyTask.stopToken =>
        some { s with task_queue := rest, procs := s.procs.set w WorkerState.stopped }
    | _, _ => none
  | SysAct.finish w =>
    match s.procs[w]? with
    | some (WorkerState.busy i x) =>
      if s.result_queue.length < s.result_capacity then
        some { s with result_queue := s.result_queue ++ [(i, f x)],
                      procs := s.procs.set w WorkerState.idle }
      else none
    | _ => none
  | SysAct.getRes =>
    match AsyncPredictor.get s.disp s.result_queue with
    | some (_, d1, rest) => some { s with disp := d1, result_queue := rest }
    | none => none
  | SysAct.shutdown =>
    if s.task_queue.length + s.procs.length ≤ s.task_capacity then
      some { s with task_queue :=
        s.task_queue ++ List.replicate s.procs.length PyTask.stopToken }
    else none

/-- Run a sequence of events from a state; `none` as soon as one event is
disabled. -/
def runSys {α β : Type} (f : α → β) (s : SysState α β) (acts : List (SysAct α)) :
    Option (SysState α β) :=
  acts.foldlM (step f) s

end Sys

/-! Helper lemmas about the reorder-buffer insertion. -/

theorem AsyncPredictor.bufInsert_nil {β : Type} (p : Nat × β) :
    bufInsert [] p = [p] := rfl

theorem AsyncPredictor.bufInsert_cons {β : Type} (q : Nat × β)
    (b : List (Nat × β)) (p : Nat × β) :
    bufInsert (q :: b) p = if p.1 < q.1 then p :: q :: b else q :: bufInsert b p := by
  unfold bufInsert
  simp only [List.map_cons, bisectRight]
  split
  · simp
  · simp [List.insertIdx_succ_cons]

theorem AsyncPredictor.bufInsert_perm {β : Type} (b : List (Nat × β)) (p : Nat × β) :
    (bufInsert b p).Perm (p :: b) := by
  induction b with
  | nil => simp [bufInsert_nil]
  | cons q b ih =>
    rw [bufInsert_cons]
    split
    · exact List.Perm.refl _
    · exact (ih.cons q).trans (List.Perm.swap p q b)

theorem AsyncPredictor.sorted_bufInsert {β : Type} {b : List (Nat × β)} {p : Nat × β}
    (hs : b.Sorted keyLt) (hne : ∀ q ∈ b, p.1 ≠ q.1) :
    (bufInsert b p).Sorted keyLt := by
  induction b with
  | nil => simp [bufInsert_nil]
  | cons q b ih =>
    rw [bufInsert_cons]
    rw [List.sorted_cons] at hs
    split
    · rename_i hlt
      rw [List.sorted_cons]
      refine ⟨?_, by rw [List.sorted_cons]; exact hs⟩
      intro r hr
      rcases List.mem_cons.mp hr with h | h
      · subst h; exact hlt
      · exact lt_trans hlt (hs.1 r h)
    · rename_i hge
      have hqp : q.1 < p.1 :=
        lt_of_le_of_ne (le_of_not_lt hge) fun h => hne q (List.mem_cons_self q b) h.symm
      rw [List.sorted_cons]
      constructor
      · intro r hr
        rcases List.mem_cons.mp ((bufInsert_perm b p).mem_iff.mp hr) with h | h
        · subst h; exact hqp
        · exact hs.1 r h
      · exact ih hs.2 fun q' hq' => hne q' (List.mem_cons_of_mem _ hq')

/-! Helper lemmas about the reorder loop of `get`. -/

theorem AsyncPredictor.getLoop_complete {β : Type} (want P : Nat) (y : β) :
    ∀ (pre : List (Nat × β)) (b post : List (Nat × β)), (∀ q ∈ pre, q.1 ≠ want) →
      getLoop want P b (pre ++ (want, y) :: post) =
        some (y, ⟨P, want, List.foldl bufInsert b pre⟩, post) := by
  intro pre
  induction pre with
  | nil => intro b post _; simp [getLoop]
  | cons p pre ih =>
    obtain ⟨i, d⟩ := p
    intro b post hpre
    have hiw : ¬(i = want) := hpre (i, d) (List.mem_cons_self (i, d) pre)
    simp only [List.cons_append, getLoop, hiw, if_false, List.foldl_cons]
    exact ih (bufInsert b (i, d)) post fun q hq => hpre q (List.mem_cons_of_mem _ hq)

theorem AsyncPredictor.getLoop_sound {β : Type} {want P : Nat} :
    ∀ {stream b : List (Nat × β)} {y : β} {s1 : AsyncPredictor β}
      {rest1 : List (Nat × β)},
      getLoop want P b stream = some (y, s1, rest1) →
      ∃ pre post, stream = pre ++ (want, y) :: post ∧ (∀ q ∈ pre, q.1 ≠ want) ∧
        rest1 = post ∧ s1 = ⟨P, want, List.foldl bufInsert b pre⟩ := by
  intro stream
  induction stream with
  | nil => intro b y s1 rest1 h; simp [getLoop] at h
  | cons p rest ih =>
    obtain ⟨i, d⟩ := p
    intro b y s1 rest1 h
    by_cases hiw : i = want
    · subst hiw
      simp [getLoop] at h
      obtain ⟨hy, hs1, hr⟩ := h
      exact ⟨[], rest, by simp [hy], by simp, hr.symm, hs1.symm⟩
    · simp only [getLoop, hiw, if_false] at h
      obtain ⟨pre, post, hst, hpre, hr, hs1⟩ := ih h
      refine ⟨(i, d) :: pre, post, by rw [List.cons_append, hst], ?_, hr, by simp [hs1]⟩
      intro q hq
      rcases List.mem_cons.mp hq with h | h
      · subst h; exact hiw
      · exact hpre q h

theorem AsyncPredictor.foldl_bufInsert_perm {β : Type} :
    ∀ (l b : List (Nat × β)), (List.foldl bufInsert b l).Perm (b ++ l) := by
  intro l
  induction l with
  | nil => intro b; simp
  | cons p l ih =>
    intro b
    rw [List.foldl_cons]
    refine (ih (bufInsert b p)).trans ?_
    refine ((bufInsert_perm b p).append_right l).trans ?_
    simpa using List.perm_middle.symm

theorem AsyncPredictor.bufInsert_append_perm {β : Type} (b rest : List (Nat × β))
    (p : Nat × β) : (bufInsert b p ++ rest).Perm (b ++ p :: rest) := by
  refine ((bufInsert_perm b p).append_right rest).trans ?_
  simpa using List.perm_middle.symm

theorem AsyncPredictor.foldl_bufInsert_sorted {β : Type} :
    ∀ (l b : List (Nat × β)), b.Sorted keyLt →
      ((b ++ l).map Prod.fst).Nodup → (List.foldl bufInsert b l).Sorted keyLt := by
  intro l
  induction l with
  | nil => intro b hs _; simpa using hs
  | cons p l ih =>
    intro b hs hnd
    rw [List.foldl_cons]
    have hdisj := (List.nodup_append.mp (by simpa using hnd)).2.2
    apply ih
    · refine sorted_bufInsert hs fun q hq h => ?_
      have hq1 : q.1 ∈ b.map Prod.fst := List.mem_map_of_mem Prod.fst hq
      exact hdisj hq1 (by simp [← h])
    · have hperm := (bufInsert_append_perm b l p).map Prod.fst
      exact hperm.symm.nodup (by simpa using hnd)

theorem AsyncPredictor.getLoop_spec {β : Type} (want P : Nat) :
    ∀ (stream b : List (Nat × β)), b.Sorted keyLt →
      ((b ++ stream).map Prod.fst).Nodup →
      want ∉ b.map Prod.fst → want ∈ stream.map Prod.fst →
      ∃ y b1 rest1, getLoop want P b stream = some (y, ⟨P, want, b1⟩, rest1) ∧
        ((want, y) :: (b1 ++ rest1)).Perm (b ++ stream) ∧ b1.Sorted keyLt := by
  intro stream
  induction stream with
  | nil => intro b _ _ _ hmem; simp at hmem
  | cons p rest ih =>
    obtain ⟨i, d⟩ := p
    intro b hs hnd hnb hmem
    by_cases hiw : i = want
    · subst hiw
      refine ⟨d, b, rest, by simp [getLoop], ?_, hs⟩
      simpa using List.perm_middle.symm
    · have hdisj := (List.nodup_append.mp (by simpa using hnd)).2.2
      have hne : ∀ q ∈ b, i ≠ q.1 := by
        intro q hq h
        exact hdisj (by simpa [← h] using List.mem_map_of_mem Prod.fst hq)
          (List.mem_cons_self i (rest.map Prod.fst))
      have hperm1 : (bufInsert b (i, d) ++ rest).Perm (b ++ (i, d) :: rest) :=
        bufInsert_append_perm b rest (i, d)
      have hnd1 : ((bufInsert b (i, d) ++ rest).map Prod.fst).Nodup :=
        (hperm1.map Prod.fst).symm.nodup hnd
      have hnb1 : want ∉ (bufInsert b (i, d)).map Prod.fst := by
        intro hmem1
        rcases List.mem_cons.mp
            (((bufInsert_perm b (i, d)).map Prod.fst).mem_iff.mp hmem1) with h | h
        · exact hiw h.symm
        · exact hnb h
      have hmem1 : want ∈ rest.map Prod.fst := by
        rw [List.map_cons] at hmem
        rcases List.mem_cons.mp hmem with h | h
        · exact absurd h.symm hiw
        · exact h
      obtain ⟨y, b1, rest1, hrun, hp, hs1⟩ :=
        ih (bufInsert b (i, d)) (sorted_bufInsert hs hne) hnd1 hnb1 hmem1
      refine ⟨y, b1, rest1, ?_, hp.trans hperm1, hs1⟩
      simpa [getLoop, hiw] using hrun

theorem AsyncPredictor.get_cursor {β : Type} {s : AsyncPredictor β}
    {stream : List (Nat × β)} {y : β} {s1 : AsyncPredictor β}
    {rest1 : List (Nat × β)} (h : get s stream = some (y, s1, rest1)) :
    s1.get_idx = s.get_idx + 1 ∧ s1.put_idx = s.put_idx := by
  cases hp : s.pending with
  | nil =>
    rw [get, hp] at h
    obtain ⟨pre, post, -, -, -, hs1⟩ := getLoop_sound h
    simp [hs1]
  | cons q rest =>
    obtain ⟨r, d⟩ := q
    rw [get, hp] at h
    by_cases hr : r = s.get_idx + 1
    · simp only [hr, if_true, Option.some.injEq, Prod.mk.injEq] at h
      obtain ⟨-, hs1, -⟩ := h
      simp [← hs1]
    · simp only [hr, if_false] at h
      obtain ⟨pre, post, -, -, -, hs1⟩ := getLoop_sound h
      simp [hs1]

theorem AsyncPredictor.get_some_mem {β : Type} {s : AsyncPredictor β}
    {stream : List (Nat × β)} {y : β} {s1 : AsyncPredictor β}
    {rest1 : List (Nat × β)} (h : get s stream = some (y, s1, rest1)) :
    s.get_idx + 1 ∈ (s.pending ++ stream).map Prod.fst := by
  cases hp : s.pending with
  | nil =>
    rw [get, hp] at h
    obtain ⟨pre, post, hst, -, -, -⟩ := getLoop_sound h
    simp [hst]
  | cons q rest =>
    obtain ⟨r, d⟩ := q
    rw [get, hp] at h
    by_cases hr : r = s.get_idx + 1
    · simp [hr]
    · simp only [hr, if_false] at h
      obtain ⟨pre, post, hst, -, -, -⟩ := getLoop_sound h
      simp [hst]

/-- Workhorse: when the buffer is sorted, its ids exceed the last delivered
id, all in-flight ids are pairwise distinct, and the awaited id is present in
buffer or stream, `get` succeeds, bumps `get_idx`, and the buffer/stream pair
loses exactly the awaited entry, the buffer staying sorted. -/
theorem AsyncPredictor.get_spec {β : Type} (s : AsyncPredictor β)
    (stream : List (Nat × β)) (hs : s.pending.Sorted keyLt)
    (hlb : ∀ i ∈ s.pending.map Prod.fst, s.get_idx < i)
    (hnd : ((s.pending ++ stream).map Prod.fst).Nodup)
    (hmem : s.get_idx + 1 ∈ (s.pending ++ stream).map Prod.fst) :
    ∃ y s1 rest1, get s stream = some (y, s1, rest1) ∧
      s1.put_idx = s.put_idx ∧ s1.get_idx = s.get_idx + 1 ∧
      ((s.get_idx + 1, y) :: (s1.pending ++ rest1)).Perm (s.pending ++ stream) ∧
      s1.pending.Sorted keyLt := by
  by_cases hw : s.get_idx + 1 ∈ s.pending.map Prod.fst
  · cases hpend : s.pending with
    | nil => rw [hpend] at hw; simp at hw
    | cons q rest =>
      obtain ⟨r, d⟩ := q
      have hr : r = s.get_idx + 1 := by
        rw [hpend, List.map_cons] at hw
        rcases List.mem_cons.mp hw with h | h
        · exact h.symm
        · exfalso
          rw [hpend, List.sorted_cons] at hs
          obtain ⟨p, hpmem, hfst⟩ := List.mem_map.mp h
          have h1 : r < p.1 := hs.1 p hpmem
          have h2 : s.get_idx < r := hlb r (by rw [hpend]; simp)
          omega
      subst hr
      refine ⟨d, ⟨s.put_idx, s.get_idx + 1, rest⟩, stream, ?_, rfl, rfl, ?_, ?_⟩
      · rw [get, hpend]; simp
      · exact List.Perm.refl _
      · rw [hpend, List.sorted_cons] at hs
        exact hs.2
  · have hwst : s.get_idx + 1 ∈ stream.map Prod.fst := by
      rw [List.map_append] at hmem
      rcases List.mem_append.mp hmem with h | h
      · exact absurd h hw
      · exact h
    obtain ⟨y, b1, rest1, hrun, hperm, hs1⟩ :=
      getLoop_spec (s.get_idx + 1) s.put_idx stream s.pending hs hnd hw hwst
    refine ⟨y, ⟨s.put_idx, s.get_idx + 1, b1⟩, rest1, ?_, rfl, rfl, hperm, hs1⟩
    cases hpend : s.pending with
    | nil =>
      rw [hpend] at hrun
      rw [get, hpend]
      exact hrun
    | cons q rest =>
      obtain ⟨r, d⟩ := q
      have hr : ¬(r = s.get_idx + 1) := fun h => hw (by rw [hpend]; simp [h])
      rw [hpend] at hrun
      rw [get, hpend]
      simp only [hr, if_false]
      exact hrun

/-- Iterating `get` under the reorder invariant: when the in-flight ids of
buffer and stream are exactly `g+1 .. g+n` with values given by `val`, the
`n` retrievals succeed and return `val (g+1), ..., val (g+n)` in that
order, consuming everything. -/
theorem AsyncPredictor.runGets_spec {β : Type} (val : Nat → β) :
    ∀ (n : Nat) (s : AsyncPredictor β) (stream : List (Nat × β)),
      s.pending.Sorted keyLt →
      ((s.pending ++ stream).map Prod.fst).Perm (List.range' (s.get_idx + 1) n) →
      (∀ q ∈ s.pending ++ stream, q.2 = val q.1) →
      runGets n s stream =
        some ((List.range' (s.get_idx + 1) n).map val,
          ⟨s.put_idx, s.get_idx + n, []⟩, []) := by
  intro n
  induction n with
  | zero =>
    intro s stream _ hperm _
    have hr0 : List.range' (s.get_idx + 1) 0 = [] := rfl
    have h0 : (s.pending ++ stream).map Prod.fst = [] :=
      List.Perm.eq_nil (hr0 ▸ hperm)
    have h1 : s.pending ++ stream = [] := by simpa using h0
    obtain ⟨hp, hst⟩ := List.append_eq_nil.mp h1
    subst hst
    obtain ⟨sp, sg, spend⟩ := s
    simp only at hp
    subst hp
    simp [runGets]
  | succ n ih =>
    intro s stream hs hperm hval
    have hnd : ((s.pending ++ stream).map Prod.fst).Nodup :=
      hperm.symm.nodup (List.nodup_range' _ _)
    have hmem : s.get_idx + 1 ∈ (s.pending ++ stream).map Prod.fst := by
      rw [hperm.mem_iff]
      exact List.mem_range'_1.mpr ⟨le_refl _, by omega⟩
    obtain ⟨y, s1, rest1, hget, hput, hgidx, hpermstep, hs1⟩ :=
      get_spec s stream hs
        (by
          intro i hi
          have hi2 : i ∈ (s.pending ++ stream).map Prod.fst := by
            rw [List.map_append]
            exact List.mem_append_left _ hi
          have := List.mem_range'_1.mp (hperm.mem_iff.mp hi2)
          omega)
        hnd hmem
    have hy : y = val (s.get_idx + 1) :=
      hval _ (hpermstep.mem_iff.mp (List.mem_cons_self _ _))
    have hperm1 : ((s1.pending ++ rest1).map Prod.fst).Perm
        (List.range' (s1.get_idx + 1) n) := by
      have h1 : ((s.get_idx + 1) :: (s1.pending ++ rest1).map Prod.fst).Perm
          (List.range' (s.get_idx + 1) (n + 1)) := by
        have h2 := (hpermstep.map Prod.fst).trans hperm
        simpa using h2
      rw [List.range'_succ] at h1
      rw [hgidx]
      exact h1.cons_inv
    have hval1 : ∀ q ∈ s1.pending ++ rest1, q.2 = val q.1 := fun q hq =>
      hval q (hpermstep.mem_iff.mp (List.mem_cons_of_mem _ hq))
    have hihres := ih s1 rest1 hs1 hperm1 hval1
    simp only [runGets, hget, Option.some_bind, hihres, Option.map_some']
    rw [List.range'_succ, List.map_cons, hy, hput, hgidx]
    have harith : s.get_idx + 1 + n = s.get_idx + (n + 1) := by omega
    rw [harith]

/-- `putSeq` only advances `put_idx`: `n` calls to `put` add `n` to it. -/
theorem AsyncPredictor.putSeq_def {β α : Type} (x : Nat → α) :
    ∀ (n : Nat) (s : AsyncPredictor β),
      putSeq x n s = ⟨s.put_idx + n, s.get_idx, s.pending⟩ := by
  intro n
  induction n with
  | zero => intro s; cases s; simp [putSeq]
  | succ n ih =>
    intro s
    simp [putSeq, put, ih]
    omega

/-- C1.  Order preservation: for any sequence of `N` submissions via `put`
with inputs `x 1 .. x N` and any worker completion order (any stream whose
ids are a permutation of `1 .. N`, carrying `f` of the submitted input),
calling `get` `N` times yields `f (x 1), f (x 2), ..., f (x N)` in exactly
submission order. -/
theorem AsyncPredictor.order_preservation {α β : Type} (x : Nat → α) (f : α → β)
    (N : Nat) (r : List (Nat × β))
    (hperm : (r.map Prod.fst).Perm (List.range' 1 N))
    (hdata : ∀ q ∈ r, q.2 = f (x q.1)) :
    runGets N (putSeq x N ({} : AsyncPredictor β)) r =
      some ((List.range' 1 N).map fun i => f (x i), ⟨N, N, []⟩, []) := by
  have hinit : putSeq x N ({} : AsyncPredictor β) = ⟨N, 0, []⟩ := by
    simp [putSeq_def]
  rw [hinit]
  have h := runGets_spec (fun i => f (x i)) N ⟨N, 0, []⟩ r (by simp)
    (by simpa using hperm) (by simpa using hdata)
  simpa using h

/-- Witness for C1: three submissions of `1, 2, 3` with `f = (· + 10)`,
results completing in the order `2, 3, 1`, retrieved as `11, 12, 13`. -/
theorem AsyncPredictor.order_preservation_witness :
    runGets 3 (putSeq (fun i => i) 3 ({} : AsyncPredictor Nat))
        [(2, 12), (3, 13), (1, 11)] =
      some ([11, 12, 13], ⟨3, 3, []⟩, []) := by
  have h := order_preservation (fun i => i) (fun v => v + 10) 3
    [(2, 12), (3, 13), (1, 11)] (by decide) (by decide)
  simpa using h

/-- C2.  No loss / no duplication: provided every worker completes every
dequeued task (the stream covers each submitted id exactly once), the `N`
retrievals deliver, for every id `i`, the result `f (x i)` exactly once
(at position `i - 1`); nothing is left in buffer or stream, and an
`(N+1)`-st `get` blocks rather than delivering anything again. -/
theorem AsyncPredictor.no_loss_no_duplication {α β : Type} (x : Nat → α) (f : α → β)
    (N : Nat) (r : List (Nat × β))
    (hperm : (r.map Prod.fst).Perm (List.range' 1 N))
    (hdata : ∀ q ∈ r, q.2 = f (x q.1)) :
    ∃ out s1, runGets N (putSeq x N ({} : AsyncPredictor β)) r = some (out, s1, []) ∧
      out.length = N ∧
      (∀ i ∈ List.range' 1 N, out[i - 1]? = some (f (x i))) ∧
      s1.pending = [] ∧ get s1 [] = none := by
  have hinit : putSeq x N ({} : AsyncPredictor β) = ⟨N, 0, []⟩ := by
    simp [putSeq_def]
  have hrun := runGets_spec (fun i => f (x i)) N ⟨N, 0, []⟩ r (by simp)
    (by simpa using hperm) (by simpa using hdata)
  refine ⟨(List.range' 1 N).map fun i => f (x i), ⟨N, N, []⟩, ?_, by simp, ?_, rfl, rfl⟩
  · rw [hinit]
    simpa using hrun
  · intro i hi
    obtain ⟨h1, h2⟩ := List.mem_range'_1.mp hi
    have hlen : i - 1 < (List.range' 1 N).length := by
      rw [List.length_range']
      omega
    rw [List.getElem?_map, List.getElem?_eq_getElem hlen, Option.map_some',
      List.getElem_range'_1]
    have h3 : 1 + (i - 1) = i := by omega
    rw [h3]

/-- Witness for C2: two submissions with `f = (2 * ·)`, completion order
`2, 1`. -/
theorem AsyncPredictor.no_loss_no_duplication_witness :
    ∃ out s1,
      runGets 2 (putSeq (fun i => i) 2 ({} : AsyncPredictor Nat)) [(2, 4), (1, 2)] =
        some (out, s1, []) ∧ out.length = 2 ∧
      (∀ i ∈ List.range' 1 2, out[i - 1]? = some (2 * i)) ∧
      s1.pending = [] ∧ AsyncPredictor.get s1 [] = none :=
  no_loss_no_duplication (fun i => i) (fun v => 2 * v) 2 [(2, 4), (1, 2)]
    (by decide) (by decide)

/-- C3.  The retrieve algorithm of `get`: (i) the awaited id is
`get_idx + 1`; (ii) when the buffer's smallest key (its head, the buffer
being sorted) equals the awaited id, that entry is removed and returned
without reading the result channel; (iii) otherwise `get` pops entries from
the channel, returns the one whose id is the awaited id, buffering every
earlier pop at its bisect position; (iv) one bisect insertion keeps the
buffer sorted, so the buffer is sorted at all times. -/
theorem AsyncPredictor.retrieve_algorithm {β : Type} (s : AsyncPredictor β)
    (stream : List (Nat × β)) :
    (∀ y s1 rest1, get s stream = some (y, s1, rest1) →
      s1.get_idx = s.get_idx + 1) ∧
    (∀ d tail, s.pending = (s.get_idx + 1, d) :: tail →
      get s stream = some (d, ⟨s.put_idx, s.get_idx + 1, tail⟩, stream)) ∧
    (∀ pre y post, stream = pre ++ (s.get_idx + 1, y) :: post →
      (∀ q ∈ pre, q.1 ≠ s.get_idx + 1) →
      (s.pending.map Prod.fst).head? ≠ some (s.get_idx + 1) →
      get s stream =
        some (y, ⟨s.put_idx, s.get_idx + 1, List.foldl bufInsert s.pending pre⟩,
          post)) ∧
    (∀ (b : List (Nat × β)) (p : Nat × β), b.Sorted keyLt →
      (∀ q ∈ b, p.1 ≠ q.1) → (bufInsert b p).Sorted keyLt) := by
  refine ⟨?_, ?_, ?_, fun b p hs hne => sorted_bufInsert hs hne⟩
  · intro y s1 rest1 h
    exact (get_cursor h).1
  · intro d tail hp
    rw [get, hp]
    simp
  · intro pre y post hst hpre hhead
    rw [hst]
    cases hp : s.pending with
    | nil =>
      rw [get, hp]
      exact getLoop_complete _ _ _ pre [] post hpre
    | cons q tail =>
      obtain ⟨r, d⟩ := q
      have hr : ¬(r = s.get_idx + 1) := by
        intro h
        exact hhead (by simp [hp, h])
      rw [get, hp]
      simp only [hr, if_false]
      rw [← hp]
      exact getLoop_complete _ _ _ pre s.pending post hpre

/-- Witness for C3: a fast-path retrieval (buffer head hit, channel
untouched), a reorder-loop retrieval with one bisect insertion, and a
sortedness instance. -/
theorem AsyncPredictor.retrieve_algorithm_witness :
    AsyncPredictor.get (⟨3, 0, [(1, 10)]⟩ : AsyncPredictor Nat) [(9, 99)] =
      some (10, ⟨3, 1, []⟩, [(9, 99)]) ∧
    AsyncPredictor.get (⟨4, 1, [(4, 40)]⟩ : AsyncPredictor Nat)
        [(3, 30), (2, 20), (7, 70)] =
      some (20, ⟨4, 2, [(3, 30), (4, 40)]⟩, [(7, 70)]) ∧
    (AsyncPredictor.bufInsert [(2, 20), (5, 50)] (3, 30)).Sorted
      AsyncPredictor.keyLt :=
  ⟨(retrieve_algorithm (⟨3, 0, [(1, 10)]⟩ : AsyncPredictor Nat) [(9, 99)]).2.1
      10 [] rfl,
   (retrieve_algorithm (⟨4, 1, [(4, 40)]⟩ : AsyncPredictor Nat)
      [(3, 30), (2, 20), (7, 70)]).2.2.1 [(3, 30)] 20 [(7, 70)] rfl
      (by decide) (by decide),
   (retrieve_algorithm (⟨0, 0, []⟩ : AsyncPredictor Nat) []).2.2.2
      [(2, 20), (5, 50)] (3, 30) (by decide) (by decide)⟩

/-- C5 counterexample: after a single `put` on a fresh dispatcher the
exposed in-flight count `__len__` is `1`, while
`next_submit_id - next_expected_id - 1 = 2 - 1 - 1 = 0`. -/
theorem AsyncPredictor.len_formula_counterexample :
    AsyncPredictor.len (AsyncPredictor.put ({} : AsyncPredictor Nat) (0 : Nat)).1 ≠
      (AsyncPredictor.next_submit_id
          (AsyncPredictor.put ({} : AsyncPredictor Nat) (0 : Nat)).1 : Int) -
        (AsyncPredictor.next_expected_id
          (AsyncPredictor.put ({} : AsyncPredictor Nat) (0 : Nat)).1 : Int) - 1 := by
  decide

/-- C5 amended: in every dispatcher state the exposed in-flight count
(`__len__`) equals `next_submit_id - next_expected_id` (with no further
`- 1`). -/
theorem AsyncPredictor.len_eq_cursor_difference {β : Type} (s : AsyncPredictor β) :
    len s = (next_submit_id s : Int) - (next_expected_id s : Int) := by
  simp only [len, next_submit_id, next_expected_id]
  push_cast
  ring

/-- A buffer sorted by id has pairwise distinct ids. -/
theorem AsyncPredictor.sorted_nodup_fst {β : Type} {b : List (Nat × β)}
    (hs : b.Sorted keyLt) : (b.map Prod.fst).Nodup := by
  rw [List.Nodup, List.pairwise_map]
  exact hs.imp fun h => Nat.ne_of_lt h

/-- Strengthened invariant of reachable dispatcher states: the buffer is
sorted by id, and every buffered id lies strictly between the last
delivered id and the last submitted id. -/
theorem AsyncPredictor.reachable_invariant {β : Type} {s : AsyncPredictor β}
    (h : Reachable s) :
    s.pending.Sorted keyLt ∧
      ∀ i ∈ s.pending.map Prod.fst, s.get_idx < i ∧ i ≤ s.put_idx := by
  induction h with
  | init => simp
  | putStep s x hr ih =>
    refine ⟨ih.1, fun i hi => ?_⟩
    have h2 := ih.2 i hi
    refine ⟨h2.1, ?_⟩
    show i ≤ s.put_idx + 1
    omega
  | getStep s stream y s1 stream1 hr hv hg ih =>
    obtain ⟨hnodup_st, hbounds_st⟩ := hv
    have hlb : ∀ i ∈ s.pending.map Prod.fst, s.get_idx < i := fun i hi => (ih.2 i hi).1
    have hnd : ((s.pending ++ stream).map Prod.fst).Nodup := by
      rw [List.map_append, List.nodup_append]
      refine ⟨sorted_nodup_fst ih.1, hnodup_st, ?_⟩
      intro a ha hast
      exact (hbounds_st a hast).2.2 ha
    obtain ⟨y2, s2, rest2, hget, hput, hgidx, hpermstep, hs2⟩ :=
      get_spec s stream ih.1 hlb hnd (get_some_mem hg)
    have h3 := Option.some.inj (hg.symm.trans hget)
    have hy2 : y = y2 := congrArg Prod.fst h3
    have hs2eq : s1 = s2 := congrArg (fun z => z.2.1) h3
    have hr2 : stream1 = rest2 := congrArg (fun z => z.2.2) h3
    subst hy2 hs2eq hr2
    refine ⟨hs2, fun i hi => ?_⟩
    obtain ⟨p, hp, hfst⟩ := List.mem_map.mp hi
    have hpmem : p ∈ s.pending ++ stream :=
      hpermstep.mem_iff.mp
        (List.mem_cons_of_mem _ (List.mem_append_left _ hp))
    have hb : s.get_idx < p.1 ∧ p.1 ≤ s.put_idx := by
      rcases List.mem_append.mp hpmem with h | h
      · exact ih.2 p.1 (List.mem_map_of_mem Prod.fst h)
      · have h4 := hbounds_st p.1 (List.mem_map_of_mem Prod.fst h)
        exact ⟨h4.1, h4.2.1⟩
    have hnodup2 : ((s.get_idx + 1) :: (s1.pending ++ stream1).map Prod.fst).Nodup := by
      have h5 := (hpermstep.map Prod.fst).symm.nodup hnd
      simpa using h5
    have hne : p.1 ≠ s.get_idx + 1 := by
      intro hcontra
      have h6 : p.1 ∈ (s1.pending ++ stream1).map Prod.fst := by
        rw [List.map_append]
        exact List.mem_append_left _ (List.mem_map_of_mem Prod.fst hp)
      exact (List.nodup_cons.mp hnodup2).1 (hcontra ▸ h6)
    subst hfst
    constructor
    · rw [hgidx]
      omega
    · rw [hput]
      exact hb.2

/-- C4.  Pending Result Buffer invariant: in every reachable dispatcher
state the buffer holds no two entries with the same sequence id, and every
buffered id is strictly greater than the last id delivered to the caller
(`get_idx`); reachability closes the invariant under every `put` and
`get`. -/
theorem AsyncPredictor.pending_buffer_invariant {β : Type} {s : AsyncPredictor β}
    (h : Reachable s) :
    (s.pending.map Prod.fst).Nodup ∧
      ∀ i ∈ s.pending.map Prod.fst, s.get_idx < i := by
  obtain ⟨hs, hb⟩ := reachable_invariant h
  exact ⟨sorted_nodup_fst hs, fun i hi => (hb i hi).1⟩

/-- Witness for C4: the state reached by two `put` calls and one `get`
that buffered the early result of id 2 before delivering id 1. -/
theorem AsyncPredictor.pending_buffer_invariant_witness :
    (((⟨2, 1, [(2, 22)]⟩ : AsyncPredictor Nat)).pending.map Prod.fst).Nodup ∧
      ∀ i ∈ ((⟨2, 1, [(2, 22)]⟩ : AsyncPredictor Nat)).pending.map Prod.fst,
        (⟨2, 1, [(2, 22)]⟩ : AsyncPredictor Nat).get_idx < i :=
  pending_buffer_invariant
    (Reachable.getStep ⟨2, 0, []⟩ [(2, 22), (1, 11)] 11 ⟨2, 1, [(2, 22)]⟩ []
      (Reachable.putStep ⟨1, 0, []⟩ (7 : Nat)
        (Reachable.putStep ⟨0, 0, []⟩ (5 : Nat) Reachable.init))
      ⟨by decide, by decide⟩ rfl)

/-- `popleft` after appending one element always succeeds, splitting off the
oldest element. -/
theorem VisualizationDemo.popleft_append_singleton {α : Type} (fd : List α)
    (frame : α) :
    ∃ f0 fd1, popleft (fd ++ [frame]) = some (f0, fd1) ∧
      fd ++ [frame] = f0 :: fd1 := by
  cases fd with
  | nil => exact ⟨frame, [], rfl, rfl⟩
  | cons a l => exact ⟨a, l ++ [frame], rfl, rfl⟩

/-- The drain loop yields one processed frame per buffered frame, pairing
the `k`-th popped frame with the result of id `get_idx + 1 + k`. -/
theorem VisualizationDemo.drainLoop_spec {α β γ : Type} (proc : α → β → γ)
    (f : α → β) (val : Nat → β) :
    ∀ (fd : List α) (s : AsyncPredictor β) (stream : List (Nat × β)),
      s.pending.Sorted AsyncPredictor.keyLt →
      ((s.pending ++ stream).map Prod.fst).Perm
        (List.range' (s.get_idx + 1) fd.length) →
      (∀ q ∈ s.pending ++ stream, q.2 = val q.1) →
      (∀ k fr, fd[k]? = some fr → val (s.get_idx + 1 + k) = f fr) →
      drainLoop proc fd s stream =
        some (fd.map fun fr => proc fr (f fr),
          ⟨s.put_idx, s.get_idx + fd.length, []⟩, []) := by
  intro fd
  induction fd with
  | nil =>
    intro s stream _ hperm _ _
    have hr0 : List.range' (s.get_idx + 1) 0 = [] := rfl
    have h0 : (s.pending ++ stream).map Prod.fst = [] :=
      List.Perm.eq_nil (by simpa [hr0] using hperm)
    have h1 : s.pending ++ stream = [] := by simpa using h0
    obtain ⟨hp, hst⟩ := List.append_eq_nil.mp h1
    subst hst
    obtain ⟨sp, sg, spend⟩ := s
    simp only at hp
    subst hp
    simp [drainLoop]
  | cons fr fd ih =>
    intro s stream hs hperm hval hframes
    have hnd : ((s.pending ++ stream).map Prod.fst).Nodup :=
      hperm.symm.nodup (List.nodup_range' _ _)
    have hmem : s.get_idx + 1 ∈ (s.pending ++ stream).map Prod.fst := by
      rw [hperm.mem_iff]
      exact List.mem_range'_1.mpr ⟨le_refl _, by simp⟩
    obtain ⟨y, s1, rest1, hget, hput, hgidx, hpermstep, hs1⟩ :=
      AsyncPredictor.get_spec s stream hs
        (by
          intro i hi
          have hi2 : i ∈ (s.pending ++ stream).map Prod.fst := by
            rw [List.map_append]
            exact List.mem_append_left _ hi
          have := List.mem_range'_1.mp (hperm.mem_iff.mp hi2)
          omega)
        hnd hmem
    have hy : y = f fr := by
      have h1 : y = val (s.get_idx + 1) :=
        hval _ (hpermstep.mem_iff.mp (List.mem_cons_self _ _))
      have h2 := hframes 0 fr (by simp)
      simpa [h1] using h2
    have hperm1 : ((s1.pending ++ rest1).map Prod.fst).Perm
        (List.range' (s1.get_idx + 1) fd.length) := by
      have h1 : ((s.get_idx + 1) :: (s1.pending ++ rest1).map Prod.fst).Perm
          (List.range' (s.get_idx + 1) (fd.length + 1)) := by
        have h2 := (hpermstep.map Prod.fst).trans hperm
        simpa using h2
      rw [List.range'_succ] at h1
      rw [hgidx]
      exact h1.cons_inv
    have hval1 : ∀ q ∈ s1.pending ++ rest1, q.2 = val q.1 := fun q hq =>
      hval q (hpermstep.mem_iff.mp (List.mem_cons_of_mem _ hq))
    have hframes1 : ∀ k fr2, fd[k]? = some fr2 →
        val (s1.get_idx + 1 + k) = f fr2 := by
      intro k fr2 hk
      have h1 := hframes (k + 1) fr2 (by simpa using hk)
      rw [hgidx]
      have h2 : s.get_idx + 1 + (k + 1) = s.get_idx + 1 + 1 + k := by omega
      rw [← h2]
      exact h1
    have hihres := ih s1 rest1 hs1 hperm1 hval1 hframes1
    simp only [drainLoop, hget, Option.some_bind, hihres, Option.map_some']
    rw [hy, hput, hgidx]
    have harith : s.get_idx + 1 + fd.length = s.get_idx + (fd.length + 1) := by omega
    rw [harith]
    simp

/-- The parallel video loop yields the frames in order, each paired with
the result of its own submission, independently of the worker completion
order encoded in `stream`. -/
theorem VisualizationDemo.videoLoop_spec {α β γ : Type} (proc : α → β → γ)
    (f : α → β) (val : Nat → β) (buffer_size : Nat) :
    ∀ (frames fd : List α) (cnt : Nat) (s : AsyncPredictor β)
      (stream : List (Nat × β)),
      s.pending.Sorted AsyncPredictor.keyLt →
      ((s.pending ++ stream).map Prod.fst).Perm
        (List.range' (s.get_idx + 1) (fd.length + frames.length)) →
      (∀ q ∈ s.pending ++ stream, q.2 = val q.1) →
      (∀ k fr, (fd ++ frames)[k]? = some fr → val (s.get_idx + 1 + k) = f fr) →
      videoLoop proc buffer_size frames cnt fd s stream =
        some ((fd ++ frames).map fun fr => proc fr (f fr),
          ⟨s.put_idx + frames.length,
            s.get_idx + (fd.length + frames.length), []⟩, []) := by
  intro frames
  induction frames with
  | nil =>
    intro fd cnt s stream hs hperm hval hframes
    have h := drainLoop_spec proc f val fd s stream hs (by simpa using hperm) hval
      (by intro k fr hk; exact hframes k fr (by simpa using hk))
    simpa [videoLoop] using h
  | cons frame frames ih =>
    intro fd cnt s stream hs hperm hval hframes
    have hcount : fd.length + (frame :: frames).length =
        (fd.length + frames.length) + 1 := by simp; omega
    by_cases hc : buffer_size ≤ cnt
    · obtain ⟨f0, fd1, hpop, hsplit⟩ := popleft_append_singleton fd frame
      have hconcat : fd ++ frame :: frames = f0 :: (fd1 ++ frames) := by
        rw [show fd ++ frame :: frames = (fd ++ [frame]) ++ frames from
          (List.append_assoc fd [frame] frames).symm, hsplit, List.cons_append]
      have hlenaux := congrArg List.length hsplit
      have hlen1 : fd.length = fd1.length := by
        simp only [List.length_append, List.length_cons, List.length_nil] at hlenaux
        omega
      have hnd : ((s.pending ++ stream).map Prod.fst).Nodup :=
        hperm.symm.nodup (List.nodup_range' _ _)
      have hmem : s.get_idx + 1 ∈ (s.pending ++ stream).map Prod.fst := by
        rw [hperm.mem_iff]
        exact List.mem_range'_1.mpr ⟨le_refl _, by simp⟩
      have hlb : ∀ i ∈ s.pending.map Prod.fst, s.get_idx < i := by
        intro i hi
        have hi2 : i ∈ (s.pending ++ stream).map Prod.fst := by
          rw [List.map_append]
          exact List.mem_append_left _ hi
        have := List.mem_range'_1.mp (hperm.mem_iff.mp hi2)
        omega
      obtain ⟨y, s2, rest2, hget, hput, hgidx, hpermstep, hs2⟩ :=
        AsyncPredictor.get_spec (AsyncPredictor.put s frame).1 stream hs hlb hnd hmem
      have e1 : s2.put_idx = s.put_idx + 1 := hput
      have e2 : s2.get_idx = s.get_idx + 1 := hgidx
      have hy : y = f f0 := by
        have h1 : y = val (s.get_idx + 1) :=
          hval _ (hpermstep.mem_iff.mp (List.mem_cons_self _ _))
        have h2 := hframes 0 f0 (by rw [hconcat]; simp)
        simpa [h1] using h2
      have hperm1 : ((s2.pending ++ rest2).map Prod.fst).Perm
          (List.range' (s2.get_idx + 1) (fd1.length + frames.length)) := by
        have h1 : ((s.get_idx + 1) :: (s2.pending ++ rest2).map Prod.fst).Perm
            (List.range' (s.get_idx + 1) ((fd.length + frames.length) + 1)) := by
          have h2 := (hpermstep.map Prod.fst).trans hperm
          rw [hcount] at h2
          simpa using h2
        rw [List.range'_succ] at h1
        rw [e2, ← hlen1]
        exact h1.cons_inv
      have hval1 : ∀ q ∈ s2.pending ++ rest2, q.2 = val q.1 := fun q hq =>
        hval q (hpermstep.mem_iff.mp (List.mem_cons_of_mem _ hq))
      have hframes1 : ∀ k fr2, (fd1 ++ frames)[k]? = some fr2 →
          val (s2.get_idx + 1 + k) = f fr2 := by
        intro k fr2 hk
        have h1 := hframes (k + 1) fr2 (by rw [hconcat]; simpa using hk)
        rw [e2]
        have h2 : s.get_idx + 1 + (k + 1) = s.get_idx + 1 + 1 + k := by omega
        rw [← h2]
        exact h1
      have hihres := ih fd1 (cnt + 1) s2 rest2 hs2 hperm1 hval1 hframes1
      simp only [videoLoop, hc, if_true, hpop, Option.some_bind, hget, hihres,
        Option.map_some']
      rw [hy, hconcat, e1, e2, ← hlen1]
      have a1 : s.put_idx + 1 + frames.length = s.put_idx + (frames.length + 1) := by
        omega
      have a2 : s.get_idx + 1 + (fd.length + frames.length) =
          s.get_idx + (fd.length + (frames.length + 1)) := by omega
      rw [a1, a2]
      simp
    · have hihres := ih (fd ++ [frame]) (cnt + 1) (AsyncPredictor.put s frame).1 stream
        hs
        (by
          have e : (fd ++ [frame]).length + frames.length =
              fd.length + (frame :: frames).length := by simp; omega
          rw [e]
          exact hperm)
        hval
        (by
          intro k fr hk
          refine hframes k fr ?_
          rw [show fd ++ frame :: frames = (fd ++ [frame]) ++ frames from
            (List.append_assoc fd [frame] frames).symm]
          exact hk)
      simp only [videoLoop, hc, if_false, hihres]
      rw [show fd ++ frame :: frames = (fd ++ [frame]) ++ frames from
        (List.append_assoc fd [frame] frames).symm]
      have a1 : s.put_idx + 1 + frames.length = s.put_idx + (frames.length + 1) := by
        omega
      have a2 : s.get_idx + ((fd ++ [frame]).length + frames.length) =
          s.get_idx + (fd.length + (frames.length + 1)) := by simp; omega
      rw [show (AsyncPredictor.put s frame).1.put_idx = s.put_idx + 1 from rfl,
        show (AsyncPredictor.put s frame).1.get_idx = s.get_idx from rfl, a1, a2]
      simp

/-- C8.  Pipeline driver: in parallel mode, `run_on_video` submits every
frame, pairs each retrieval with the oldest buffered frame (pairing starts
once the 0-indexed counter reaches `buffer_size`, and the local FIFO is
drained after input exhaustion), and yields exactly one processed frame per
input frame, in original frame order, with none skipped or duplicated —
for every worker completion order.  The dispatcher's `default_buffer_size`
used as `buffer_size` is `pool_size × 5`. -/
theorem VisualizationDemo.run_on_video_parallel_spec {α β γ : Type}
    (proc : α → β → γ) (f : α → β) (buffer_size : Nat) (frames : List α)
    (stream : List (Nat × β))
    (hperm : (stream.map Prod.fst).Perm (List.range' 1 frames.length))
    (hdata : ∀ q ∈ stream, (frames[q.1 - 1]?).map f = some q.2) :
    run_on_video_parallel proc buffer_size frames stream =
      some (frames.map fun fr => proc fr (f fr),
        ⟨frames.length, frames.length, []⟩, []) ∧
    ∀ num_gpus : Nat,
      Sys.default_buffer_size (Sys.sysInit num_gpus : Sys.SysState α β) =
        max num_gpus 1 * 5 := by
  constructor
  · cases frames with
    | nil =>
      have h0 : stream = [] := by
        have h1 : (stream.map Prod.fst) = [] :=
          List.Perm.eq_nil (by simpa using hperm)
        simpa using h1
      subst h0
      rfl
    | cons a l =>
      have h := videoLoop_spec proc f
        (fun i => f ((a :: l).getD (i - 1) a)) buffer_size (a :: l) [] 0 {} stream
        (by simp)
        (by simpa using hperm)
        (by
          intro q hq
          have h1 := hdata q (by simpa using hq)
          obtain ⟨fr, hfr2, hval2⟩ := Option.map_eq_some'.mp h1
          have h2 : (a :: l).getD (q.1 - 1) a = fr := by
            rw [List.getD_eq_getElem?_getD, hfr2, Option.getD_some]
          simp only [h2]
          exact hval2.symm)
        (by
          intro k fr hk
          have h2 : (a :: l).getD (0 + 1 + k - 1) a = fr := by
            have h3 : 0 + 1 + k - 1 = k := by omega
            rw [h3, List.getD_eq_getElem?_getD, show (a :: l)[k]? = some fr from
              by simpa using hk, Option.getD_some]
          simp only [h2])
      simpa [run_on_video_parallel] using h
  · intro num_gpus
    simp [Sys.default_buffer_size, Sys.sysInit]

/-- Witness for C8: three frames, buffer size 1, workers completing in the
order `2, 1, 3`; the pipeline yields the three frames in order, each paired
with its own doubled value, and `sysInit 2` gives `default_buffer_size
= 10`. -/
theorem VisualizationDemo.run_on_video_parallel_spec_witness :
    run_on_video_parallel (fun fr y => (fr, y)) 1 [5, 6, 7]
        [(2, 12), (1, 10), (3, 14)] =
      some ([(5, 10), (6, 12), (7, 14)], ⟨3, 3, []⟩, []) ∧
    ∀ num_gpus : Nat,
      Sys.default_buffer_size (Sys.sysInit num_gpus : Sys.SysState Nat Nat) =
        max num_gpus 1 * 5 := by
  have h := run_on_video_parallel_spec (fun fr y => (fr, y)) (fun v => 2 * v) 1
    [5, 6, 7] [(2, 12), (1, 10), (3, 14)] (by decide) (by decide)
  exact ⟨by simpa using h.1, h.2⟩

/-- C10 counterexample: with the `"instances"` key present but the filtered
instance set empty (`predictions = some []`), `process_frame` does not
append anything — `Instances.cat` rejects the empty selection
(`assert len(instance_lists) > 0`) and the call raises `AssertionError`
before reaching the appends of lines 235-238. -/
theorem VisualizationDemo.process_frame_empty_counterexample :
    process_frame id (some []) ⟨[], [], [], [], []⟩ 5 none =
      Except.error PyError.assertionError := rfl

/-- C10 amended.  `process_frame` raises `ValueError` iff `predictions` has
no `"instances"` key; when the key is present and the filtered index set is
nonempty it appends exactly one element to each of `rle_masks`, `classes`,
`boxes`, `scores` and leaves `raw_masks` unchanged; when the filtered index
set is empty, the `Instances.cat` call on the empty selection raises
`AssertionError` and nothing is appended. -/
theorem VisualizationDemo.process_frame_spec (rle_encode : Nat → Nat)
    (predictions : Option (List Instance)) (d : MasksInfo)
    (not_empty_threshold : Int) (class_filter : Option (List (Nat × Rat))) :
    (process_frame rle_encode predictions d not_empty_threshold class_filter =
        Except.error PyError.valueError ↔ predictions = none) ∧
    (∀ l, predictions = some l →
      filteredIdxs l not_empty_threshold class_filter ≠ [] →
      ∃ d', process_frame rle_encode predictions d not_empty_threshold
          class_filter = Except.ok d' ∧
        d'.rle_masks.length = d.rle_masks.length + 1 ∧
        d'.classes.length = d.classes.length + 1 ∧
        d'.boxes.length = d.boxes.length + 1 ∧
        d'.scores.length = d.scores.length + 1 ∧
        d'.raw_masks = d.raw_masks) ∧
    (∀ l, predictions = some l →
      filteredIdxs l not_empty_threshold class_filter = [] →
      process_frame rle_encode predictions d not_empty_threshold class_filter =
        Except.error PyError.assertionError) := by
  refine ⟨?_, ?_, ?_⟩
  · cases predictions with
    | none => simp [process_frame]
    | some l =>
      cases hsel : (filteredIdxs l not_empty_threshold class_filter).map
          (fun i => l.getD i dummyInstance) with
      | nil =>
        simp only [process_frame]
        rw [hsel]
        simp [instancesCat]
      | cons a rest =>
        simp only [process_frame]
        rw [hsel]
        simp [instancesCat]
  · intro l hl hne
    subst hl
    cases hsel : (filteredIdxs l not_empty_threshold class_filter).map
        (fun i => l.getD i dummyInstance) with
    | nil => exact absurd (by simpa using hsel) hne
    | cons a rest =>
      refine ⟨{ d with
          rle_masks := d.rle_masks ++ [((a :: rest).map Instance.mask).map rle_encode]
          classes := d.classes ++ [(a :: rest).map Instance.cls]
          boxes := d.boxes ++ [(a :: rest).map Instance.box]
          scores := d.scores ++ [(a :: rest).map Instance.score] },
        ?_, by simp, by simp, by simp, by simp, rfl⟩
      simp only [process_frame]
      rw [hsel]
      simp [instancesCat]
  · intro l hl hempty
    subst hl
    simp only [process_frame]
    rw [hempty]
    simp [instancesCat]

/-- Witness for the amended C10: one instance surviving the default
threshold filter gives a successful call appending one entry per list; the
empty instance list (empty filtered set) raises `AssertionError`. -/
theorem VisualizationDemo.process_frame_spec_witness :
    (process_frame id (some [⟨⟨0, 0, 10, 10⟩, 0, 1, 7⟩]) ⟨[], [], [], [], []⟩
        5 none = Except.error PyError.valueError ↔
      (some [⟨⟨0, 0, 10, 10⟩, 0, 1, 7⟩] : Option (List Instance)) = none) ∧
    (∃ d', process_frame id (some [⟨⟨0, 0, 10, 10⟩, 0, 1, 7⟩])
        ⟨[], [], [], [], []⟩ 5 none = Except.ok d' ∧
      d'.rle_masks.length = 1 ∧ d'.classes.length = 1 ∧
      d'.boxes.length = 1 ∧ d'.scores.length = 1 ∧ d'.raw_masks = []) ∧
    process_frame id (some ([] : List Instance)) ⟨[], [], [], [], []⟩ 5 none =
      Except.error PyError.assertionError := by
  have h1 := process_frame_spec id (some [⟨⟨0, 0, 10, 10⟩, 0, 1, 7⟩])
    ⟨[], [], [], [], []⟩ 5 none
  have h2 := process_frame_spec id (some ([] : List Instance))
    ⟨[], [], [], [], []⟩ 5 none
  exact ⟨h1.1, h1.2.1 _ rfl (by decide), h2.2.2 [] rfl (by decide)⟩

/-- C6 counterexample: with one worker, the first `shutdown` call leaves one
stop token in the task channel; a second call adds a second stop token, so
the second call is not a no-op. -/
theorem Sys.shutdown_not_noop_counterexample :
    (Sys.runSys (fun n : Nat => n) (Sys.sysInit 1 : Sys.SysState Nat Nat)
        [Sys.SysAct.shutdown]).map Sys.SysState.task_queue =
      some [Sys.PyTask.stopToken] ∧
    (Sys.runSys (fun n : Nat => n) (Sys.sysInit 1 : Sys.SysState Nat Nat)
        [Sys.SysAct.shutdown, Sys.SysAct.shutdown]).map Sys.SysState.task_queue =
      some [Sys.PyTask.stopToken, Sys.PyTask.stopToken] := by
  decide

/-- C7 counterexample: with one worker (`pool_size = 1`, both capacities 3),
a run in which every channel operation is enabled (so no `put` ever blocks)
reaches a state with `put_idx - get_idx = 7` submitted-but-unretrieved
tasks: 3 in the task channel, 1 held by the worker, and 3 in the result
channel — more than `3 × pool_size = 3`. -/
theorem Sys.backpressure_bound_counterexample :
    (Sys.runSys (fun n : Nat => n) (Sys.sysInit 1 : Sys.SysState Nat Nat)
        [Sys.SysAct.put 0, Sys.SysAct.take 0, Sys.SysAct.put 0, Sys.SysAct.put 0,
         Sys.SysAct.put 0, Sys.SysAct.finish 0, Sys.SysAct.take 0,
         Sys.SysAct.put 0, Sys.SysAct.finish 0, Sys.SysAct.take 0,
         Sys.SysAct.put 0, Sys.SysAct.finish 0, Sys.SysAct.take 0,
         Sys.SysAct.put 0]).map
      (fun s => (s.disp.put_idx - s.disp.get_idx, s.task_capacity)) =
    some (7, 3) := by
  decide

/-- C9 counterexample: with `pool_size = K = 2`, worker 1 completes ids
2, 3, 4 while worker 0 is still busy on id 1; the `get` awaiting id 1 then
buffers the three early results, so the Pending Result Buffer holds
3 > K = 2 entries in a reachable state. -/
theorem Sys.reorder_buffer_counterexample :
    (Sys.runSys (fun n : Nat => n) (Sys.sysInit 2 : Sys.SysState Nat Nat)
        [Sys.SysAct.put 0, Sys.SysAct.put 0, Sys.SysAct.take 0, Sys.SysAct.take 1,
         Sys.SysAct.put 0, Sys.SysAct.put 0, Sys.SysAct.finish 1, Sys.SysAct.take 1,
         Sys.SysAct.finish 1, Sys.SysAct.take 1, Sys.SysAct.finish 1,
         Sys.SysAct.finish 0, Sys.SysAct.getRes]).map
      (fun s => (s.disp.pending.length, s.procs.length)) = some (3, 2) := by
  decide

/-- C6 amended: every call to `shutdown` (not only the first) enqueues
exactly one stop token per worker into the task channel and returns without
waiting; a worker that dequeues a stop token terminates; a terminated worker
never dequeues another task and never produces another result, so repeated
calls cannot double-terminate workers — but a repeated call is an
additional enqueue, not a no-op. -/
theorem Sys.shutdown_effect {α β : Type} (f : α → β) (s : Sys.SysState α β)
    (h : s.task_queue.length + s.procs.length ≤ s.task_capacity) :
    Sys.step f s Sys.SysAct.shutdown =
      some { s with task_queue :=
        s.task_queue ++ List.replicate s.procs.length Sys.PyTask.stopToken } ∧
    (∀ w rest, s.procs[w]? = some Sys.WorkerState.idle →
      s.task_queue = Sys.PyTask.stopToken :: rest →
      Sys.step f s (Sys.SysAct.take w) =
        some
          { s with
            task_queue := rest
            procs := s.procs.set w Sys.WorkerState.stopped }) ∧
    (∀ w, s.procs[w]? = some Sys.WorkerState.stopped →
      Sys.step f s (Sys.SysAct.take w) = none ∧
      Sys.step f s (Sys.SysAct.finish w) = none) := by
  refine ⟨?_, ?_, ?_⟩
  · simp [Sys.step, h]
  · intro w rest hw hq
    simp [Sys.step, hw, hq]
  · intro w hw
    constructor
    · cases hq : s.task_queue with
      | nil => simp [Sys.step, hw, hq]
      | cons t rest => cases t <;> simp [Sys.step, hw, hq]
    · simp [Sys.step, hw]

/-- Witness for the amended C6 on a freshly constructed single-worker
system. -/
theorem Sys.shutdown_effect_witness :
    Sys.step (fun n : Nat => n) (Sys.sysInit 1 : Sys.SysState Nat Nat)
        Sys.SysAct.shutdown =
      some { (Sys.sysInit 1 : Sys.SysState Nat Nat) with
        task_queue := [Sys.PyTask.stopToken] } ∧
    (∀ w rest,
      (Sys.sysInit 1 : Sys.SysState Nat Nat).procs[w]? =
          some Sys.WorkerState.idle →
      (Sys.sysInit 1 : Sys.SysState Nat Nat).task_queue =
          Sys.PyTask.stopToken :: rest →
      Sys.step (fun n : Nat => n) (Sys.sysInit 1 : Sys.SysState Nat Nat)
          (Sys.SysAct.take w) =
        some
          { (Sys.sysInit 1 : Sys.SysState Nat Nat) with
            task_queue := rest
            procs := (Sys.sysInit 1 : Sys.SysState Nat Nat).procs.set w
              Sys.WorkerState.stopped }) ∧
    (∀ w, (Sys.sysInit 1 : Sys.SysState Nat Nat).procs[w]? =
        some Sys.WorkerState.stopped →
      Sys.step (fun n : Nat => n) (Sys.sysInit 1 : Sys.SysState Nat Nat)
          (Sys.SysAct.take w) = none ∧
      Sys.step (fun n : Nat => n) (Sys.sysInit 1 : Sys.SysState Nat Nat)
          (Sys.SysAct.finish w) = none) :=
  Sys.shutdown_effect (fun n : Nat => n) (Sys.sysInit 1) (by decide)

/-- A successful `get` consumes a prefix of the stream: the leftover is no
longer than the input stream. -/
theorem AsyncPredictor.get_stream_length {β : Type} {s : AsyncPredictor β}
    {stream : List (Nat × β)} {y : β} {s1 : AsyncPredictor β}
    {rest1 : List (Nat × β)} (h : get s stream = some (y, s1, rest1)) :
    rest1.length ≤ stream.length := by
  cases hp : s.pending with
  | nil =>
    rw [get, hp] at h
    obtain ⟨pre, post, hst, -, hr, -⟩ := getLoop_sound h
    subst hr
    rw [hst]
    simp
    omega
  | cons q rest =>
    obtain ⟨r, d⟩ := q
    rw [get, hp] at h
    by_cases hr : r = s.get_idx + 1
    · simp only [hr, if_true, Option.some.injEq, Prod.mk.injEq] at h
      rw [← h.2.2]
    · simp only [hr, if_false] at h
      obtain ⟨pre, post, hst, -, hre, -⟩ := getLoop_sound h
      subst hre
      rw [hst]
      simp
      omega

/-- An invariant holding initially and preserved by every enabled step
holds in every state reached by a run. -/
theorem Sys.runSys_preserve {α β : Type} (f : α → β)
    (Inv : Sys.SysState α β → Prop)
    (hstep : ∀ s a s1, Sys.step f s a = some s1 → Inv s → Inv s1) :
    ∀ (acts : List (Sys.SysAct α)) (s s1 : Sys.SysState α β),
      Sys.runSys f s acts = some s1 → Inv s → Inv s1 := by
  intro acts
  induction acts with
  | nil =>
    intro s s1 h hi
    have h2 : s = s1 := by simpa [Sys.runSys] using h
    rw [← h2]
    exact hi
  | cons a acts ih =>
    intro s s1 h hi
    rw [Sys.runSys, List.foldlM_cons] at h
    cases hstep0 : Sys.step f s a with
    | none => rw [hstep0] at h; simp at h
    | some s2 =>
      rw [hstep0] at h
      exact ih s2 s1 (by simpa [Sys.runSys] using h) (hstep s a s2 hstep0 hi)

/-- Each enabled step keeps the channel capacities unchanged and the
channel lengths within them. -/
theorem Sys.step_queue_bounds {α β : Type} (f : α → β)
    (s : Sys.SysState α β) (a : Sys.SysAct α) (s1 : Sys.SysState α β)
    (h : Sys.step f s a = some s1) :
    s1.task_capacity = s.task_capacity ∧ s1.result_capacity = s.result_capacity ∧
    (s.task_queue.length ≤ s.task_capacity →
      s.result_queue.length ≤ s.result_capacity →
      s1.task_queue.length ≤ s1.task_capacity ∧
        s1.result_queue.length ≤ s1.result_capacity) := by
  cases a with
  | put x =>
    simp only [Sys.step] at h
    split at h
    · rename_i hlt
      have h2 := Option.some.inj h
      subst h2
      refine ⟨rfl, rfl, fun h3 h4 => ⟨?_, h4⟩⟩
      show (s.task_queue ++ [Sys.PyTask.job (s.disp.put_idx + 1) x]).length ≤
        s.task_capacity
      simp only [List.length_append, List.length_cons, List.length_nil]
      omega
    · simp at h
  | take w =>
    simp only [Sys.step] at h
    cases hw : s.procs[w]? with
    | none => simp [hw] at h
    | some ws =>
      cases ws with
      | idle =>
        cases hq : s.task_queue with
        | nil => simp [hw, hq] at h
        | cons t rest =>
          cases t with
          | job i x =>
            simp [hw, hq] at h
            subst h
            refine ⟨rfl, rfl, fun h3 h4 => ⟨?_, h4⟩⟩
            show rest.length ≤ s.task_capacity
            simp only [List.length_cons] at h3
            omega
          | stopToken =>
            simp [hw, hq] at h
            subst h
            refine ⟨rfl, rfl, fun h3 h4 => ⟨?_, h4⟩⟩
            show rest.length ≤ s.task_capacity
            simp only [List.length_cons] at h3
            omega
      | busy i x => cases hq : s.task_queue <;> simp [hw, hq] at h
      | stopped => cases hq : s.task_queue <;> simp [hw, hq] at h
  | finish w =>
    simp only [Sys.step] at h
    cases hw : s.procs[w]? with
    | none => simp [hw] at h
    | some ws =>
      cases ws with
      | idle => simp [hw] at h
      | busy i x =>
        simp [hw] at h
        obtain ⟨hlt, h2⟩ := h
        subst h2
        refine ⟨rfl, rfl, fun h3 h4 => ⟨h3, ?_⟩⟩
        show (s.result_queue ++ [(i, f x)]).length ≤ s.result_capacity
        simp only [List.length_append, List.length_cons, List.length_nil]
        omega
      | stopped => simp [hw] at h
  | getRes =>
    simp only [Sys.step] at h
    cases hg : AsyncPredictor.get s.disp s.result_queue with
    | none => simp [hg] at h
    | some p =>
      obtain ⟨y, d1, rest⟩ := p
      rw [hg] at h
      have h2 := Option.some.inj h
      subst h2
      refine ⟨rfl, rfl, fun h3 h4 => ⟨h3, ?_⟩⟩
      show rest.length ≤ s.result_capacity
      have h5 := AsyncPredictor.get_stream_length hg
      omega
  | shutdown =>
    simp only [Sys.step] at h
    split at h
    · rename_i hle
      have h2 := Option.some.inj h
      subst h2
      refine ⟨rfl, rfl, fun h3 h4 => ⟨?_, h4⟩⟩
      show (s.task_queue ++
        List.replicate s.procs.length Sys.PyTask.stopToken).length ≤
        s.task_capacity
      simp only [List.length_append, List.length_replicate]
      omega
    · simp at h

/-- C7 amended: both channels are constructed with capacity exactly
`3 × pool_size` (`pool_size = max(num_gpus, 1)`), the channels never hold
more entries than their capacity in any reachable state, and a `Submit`
into a full task channel blocks (its step is disabled) rather than erroring
or growing memory; the total number of submitted-but-unretrieved tasks,
however, is not bounded by the channel capacity alone. -/
theorem Sys.channel_capacity_spec {α β : Type} (f : α → β) (num_gpus : Nat) :
    (Sys.sysInit num_gpus : Sys.SysState α β).task_capacity = max num_gpus 1 * 3 ∧
    (Sys.sysInit num_gpus : Sys.SysState α β).result_capacity = max num_gpus 1 * 3 ∧
    (∀ (acts : List (Sys.SysAct α)) (s1 : Sys.SysState α β),
      Sys.runSys f (Sys.sysInit num_gpus) acts = some s1 →
      s1.task_queue.length ≤ max num_gpus 1 * 3 ∧
        s1.result_queue.length ≤ max num_gpus 1 * 3) ∧
    (∀ (s : Sys.SysState α β) (x : α), s.task_capacity ≤ s.task_queue.length →
      Sys.step f s (Sys.SysAct.put x) = none) := by
  refine ⟨rfl, rfl, ?_, ?_⟩
  · intro acts s1 hrun
    have hpres := Sys.runSys_preserve f
      (fun s => s.task_capacity = max num_gpus 1 * 3 ∧
        s.result_capacity = max num_gpus 1 * 3 ∧
        s.task_queue.length ≤ s.task_capacity ∧
        s.result_queue.length ≤ s.result_capacity)
      (by
        intro s a s2 hstep hi
        obtain ⟨hc1, hc2, hq1, hq2⟩ := hi
        obtain ⟨e1, e2, himp⟩ := Sys.step_queue_bounds f s a s2 hstep
        obtain ⟨b1, b2⟩ := himp hq1 hq2
        exact ⟨e1.trans hc1, e2.trans hc2, b1, b2⟩)
      acts (Sys.sysInit num_gpus) s1 hrun
      ⟨rfl, rfl, by simp [Sys.sysInit], by simp [Sys.sysInit]⟩
    obtain ⟨hc1, hc2, hq1, hq2⟩ := hpres
    exact ⟨by rw [← hc1]; exact hq1, by rw [← hc2]; exact hq2⟩
  · intro s x hfull
    have hnotlt : ¬(s.task_queue.length < s.task_capacity) := by omega
    simp [Sys.step, hnotlt]

/-- Witness for the amended C7 at `num_gpus = 2`. -/
theorem Sys.channel_capacity_spec_witness :
    (Sys.sysInit 2 : Sys.SysState Nat Nat).task_capacity = max 2 1 * 3 ∧
    (Sys.sysInit 2 : Sys.SysState Nat Nat).result_capacity = max 2 1 * 3 ∧
    (∀ (acts : List (Sys.SysAct Nat)) (s1 : Sys.SysState Nat Nat),
      Sys.runSys (fun n : Nat => n) (Sys.sysInit 2) acts = some s1 →
      s1.task_queue.length ≤ max 2 1 * 3 ∧
        s1.result_queue.length ≤ max 2 1 * 3) ∧
    (∀ (s : Sys.SysState Nat Nat) (x : Nat),
      s.task_capacity ≤ s.task_queue.length →
      Sys.step (fun n : Nat => n) s (Sys.SysAct.put x) = none) :=
  Sys.channel_capacity_spec (fun n : Nat => n) 2

/-- Replacing one list element permutes the `filterMap` image: the image of
the old element plus the new image list is a permutation of the image of the
new element plus the old image list. -/
theorem Sys.filterMap_set_perm {γ : Type} (g : γ → Option Nat) :
    ∀ (ps : List γ) (w : Nat) (a b : γ), ps[w]? = some a →
      ((g a).toList ++ (ps.set w b).filterMap g).Perm
        ((g b).toList ++ ps.filterMap g) := by
  intro ps
  induction ps with
  | nil => intro w a b h; simp at h
  | cons c t ih =>
    intro w a b h
    cases w with
    | zero =>
      have hac : c = a := by simpa using h
      subst hac
      rw [List.set_cons_zero]
      cases hgc : g c with
      | none => cases hgb : g b with
        | none => simp [List.filterMap_cons, hgc, hgb]
        | some j => simp [List.filterMap_cons, hgc, hgb]
      | some i => cases hgb : g b with
        | none => simp [List.filterMap_cons, hgc, hgb]
        | some j =>
          simp only [List.filterMap_cons, hgc, hgb, Option.toList_some]
          exact List.Perm.swap j i _
    | succ w =>
      have h2 : t[w]? = some a := by simpa using h
      have iht := ih w a b h2
      rw [List.set_cons_succ]
      cases hgc : g c with
      | none => simpa [List.filterMap_cons, hgc] using iht
      | some i =>
        simp only [List.filterMap_cons, hgc]
        exact List.perm_middle.trans ((iht.cons i).trans List.perm_middle.symm)

/-- Specialization of `filterMap_set_perm` to the worker pool. -/
theorem Sys.workerIds_set_perm {α : Type} (ps : List (Sys.WorkerState α))
    (w : Nat) (a b : Sys.WorkerState α) (h : ps[w]? = some a) :
    (Sys.workerIds [a] ++ Sys.workerIds (ps.set w b)).Perm
      (Sys.workerIds [b] ++ Sys.workerIds ps) := by
  have h2 := Sys.filterMap_set_perm
    (fun w2 => match w2 with
      | Sys.WorkerState.busy i _ => some i
      | _ => none) ps w a b h
  cases a <;> cases b <;> exact h2

/-- Every enabled step preserves the in-flight id invariant: all in-flight
ids are pairwise distinct and lie strictly between the last delivered id and
the last submitted id, the reorder buffer is sorted, and the cursors are
ordered. -/
theorem Sys.step_ids_inv {α β : Type} (f : α → β) (s : Sys.SysState α β)
    (a : Sys.SysAct α) (s1 : Sys.SysState α β) (h : Sys.step f s a = some s1)
    (hnd : (Sys.inFlightIds s).Nodup)
    (hbd : ∀ i ∈ Sys.inFlightIds s, s.disp.get_idx < i ∧ i ≤ s.disp.put_idx)
    (hsort : s.disp.pending.Sorted AsyncPredictor.keyLt)
    (hgp : s.disp.get_idx ≤ s.disp.put_idx) :
    (Sys.inFlightIds s1).Nodup ∧
      (∀ i ∈ Sys.inFlightIds s1, s1.disp.get_idx < i ∧ i ≤ s1.disp.put_idx) ∧
      s1.disp.pending.Sorted AsyncPredictor.keyLt ∧
      s1.disp.get_idx ≤ s1.disp.put_idx := by
  cases a with
  | put x =>
    simp only [Sys.step] at h
    split at h
    · rename_i hlt
      have h2 := Option.some.inj h
      subst h2
      have e1 : Sys.inFlightIds
          { s with
            disp := (AsyncPredictor.put s.disp x).1
            task_queue := s.task_queue ++
              [Sys.PyTask.job (s.disp.put_idx + 1) x] } =
          Sys.taskIds s.task_queue ++ ((s.disp.put_idx + 1) ::
            (Sys.workerIds s.procs ++ (s.result_queue.map Prod.fst ++
              s.disp.pending.map Prod.fst))) := by
        rw [Sys.inFlightIds]
        simp [Sys.taskIds, List.filterMap_append, List.append_assoc,
          AsyncPredictor.put]
      have e2 : Sys.inFlightIds s =
          Sys.taskIds s.task_queue ++ (Sys.workerIds s.procs ++
            (s.result_queue.map Prod.fst ++ s.disp.pending.map Prod.fst)) := by
        rw [Sys.inFlightIds]
        simp [List.append_assoc]
      have hperm : (Sys.inFlightIds
          { s with
            disp := (AsyncPredictor.put s.disp x).1
            task_queue := s.task_queue ++
              [Sys.PyTask.job (s.disp.put_idx + 1) x] }).Perm
          ((s.disp.put_idx + 1) :: Sys.inFlightIds s) := by
        rw [e1, e2]
        exact List.perm_middle
      refine ⟨?_, ?_, hsort, ?_⟩
      · refine hperm.symm.nodup (List.nodup_cons.mpr ⟨?_, hnd⟩)
        intro hmem
        have := (hbd _ hmem).2
        omega
      · intro i hi
        have hi2 := hperm.mem_iff.mp hi
        show s.disp.get_idx < i ∧ i ≤ s.disp.put_idx + 1
        rcases List.mem_cons.mp hi2 with h3 | h3
        · omega
        · have := hbd i h3
          omega
      · show s.disp.get_idx ≤ s.disp.put_idx + 1
        omega
    · simp at h
  | take w =>
    simp only [Sys.step] at h
    cases hw : s.procs[w]? with
    | none => simp [hw] at h
    | some ws =>
      cases ws with
      | idle =>
        cases hq : s.task_queue with
        | nil => simp [hw, hq] at h
        | cons t rest =>
          cases t with
          | job i x =>
            simp [hw, hq] at h
            subst h
            have hW2 : (Sys.workerIds
                (s.procs.set w (Sys.WorkerState.busy i x))).Perm
                (i :: Sys.workerIds s.procs) := by
              simpa [Sys.workerIds] using
                Sys.workerIds_set_perm s.procs w Sys.WorkerState.idle
                  (Sys.WorkerState.busy i x) hw
            have e1 : Sys.inFlightIds
                { s with
                  task_queue := rest
                  procs := s.procs.set w (Sys.WorkerState.busy i x) } =
                Sys.taskIds rest ++ (Sys.workerIds
                  (s.procs.set w (Sys.WorkerState.busy i x)) ++
                  (s.result_queue.map Prod.fst ++
                    s.disp.pending.map Prod.fst)) := by
              rw [Sys.inFlightIds]
              simp [List.append_assoc]
            have e2 : Sys.inFlightIds s =
                i :: (Sys.taskIds rest ++ (Sys.workerIds s.procs ++
                  (s.result_queue.map Prod.fst ++
                    s.disp.pending.map Prod.fst))) := by
              rw [Sys.inFlightIds, hq]
              simp [Sys.taskIds, List.filterMap_cons, List.append_assoc]
            have hperm : (Sys.inFlightIds
                { s with
                  task_queue := rest
                  procs := s.procs.set w (Sys.WorkerState.busy i x) }).Perm
                (Sys.inFlightIds s) := by
              rw [e1, e2]
              exact ((hW2.append_right _).append_left _).trans List.perm_middle
            exact ⟨hperm.symm.nodup hnd,
              fun i2 hi2 => hbd i2 (hperm.mem_iff.mp hi2), hsort, hgp⟩
          | stopToken =>
            simp [hw, hq] at h
            subst h
            have hW2 : (Sys.workerIds
                (s.procs.set w Sys.WorkerState.stopped)).Perm
                (Sys.workerIds s.procs) := by
              simpa [Sys.workerIds] using
                Sys.workerIds_set_perm s.procs w Sys.WorkerState.idle
                  Sys.WorkerState.stopped hw
            have e1 : Sys.inFlightIds
                { s with
                  task_queue := rest
                  procs := s.procs.set w Sys.WorkerState.stopped } =
                Sys.taskIds rest ++ (Sys.workerIds
                  (s.procs.set w Sys.WorkerState.stopped) ++
                  (s.result_queue.map Prod.fst ++
                    s.disp.pending.map Prod.fst)) := by
              rw [Sys.inFlightIds]
              simp [List.append_assoc]
            have e2 : Sys.inFlightIds s =
                Sys.taskIds rest ++ (Sys.workerIds s.procs ++
                  (s.result_queue.map Prod.fst ++
                    s.disp.pending.map Prod.fst)) := by
              rw [Sys.inFlightIds, hq]
              simp [Sys.taskIds, List.filterMap_cons, List.append_assoc]
            have hperm : (Sys.inFlightIds
                { s with
                  task_queue := rest
                  procs := s.procs.set w Sys.WorkerState.stopped }).Perm
                (Sys.inFlightIds s) := by
              rw [e1, e2]
              exact (hW2.append_right _).append_left _
            exact ⟨hperm.symm.nodup hnd,
              fun i2 hi2 => hbd i2 (hperm.mem_iff.mp hi2), hsort, hgp⟩
      | busy i x => cases hq : s.task_queue <;> simp [hw, hq] at h
      | stopped => cases hq : s.task_queue <;> simp [hw, hq] at h
  | finish w =>
    simp only [Sys.step] at h
    cases hw : s.procs[w]? with
    | none => simp [hw] at h
    | some ws =>
      cases ws with
      | idle => simp [hw] at h
      | busy i x =>
        simp [hw] at h
        obtain ⟨hlt, h2⟩ := h
        subst h2
        have hW2 : (i :: Sys.workerIds (s.procs.set w Sys.WorkerState.idle)).Perm
            (Sys.workerIds s.procs) := by
          simpa [Sys.workerIds] using
            Sys.workerIds_set_perm s.procs w (Sys.WorkerState.busy i x)
              Sys.WorkerState.idle hw
        have e1 : Sys.inFlightIds
            { s with
              result_queue := s.result_queue ++ [(i, f x)]
              procs := s.procs.set w Sys.WorkerState.idle } =
            Sys.taskIds s.task_queue ++ (Sys.workerIds
              (s.procs.set w Sys.WorkerState.idle) ++
              (s.result_queue.map Prod.fst ++
                (i :: s.disp.pending.map Prod.fst))) := by
          rw [Sys.inFlightIds]
          simp [List.append_assoc]
        have e2 : Sys.inFlightIds s =
            Sys.taskIds s.task_queue ++ (Sys.workerIds s.procs ++
              (s.result_queue.map Prod.fst ++
                s.disp.pending.map Prod.fst)) := by
          rw [Sys.inFlightIds]
          simp [List.append_assoc]
        have hperm : (Sys.inFlightIds
            { s with
              result_queue := s.result_queue ++ [(i, f x)]
              procs := s.procs.set w Sys.WorkerState.idle }).Perm
            (Sys.inFlightIds s) := by
          rw [e1, e2]
          refine List.Perm.append_left _ ?_
          refine List.Perm.trans (List.Perm.append_left _ List.perm_middle) ?_
          refine List.Perm.trans List.perm_middle ?_
          exact hW2.append_right _
        exact ⟨hperm.symm.nodup hnd,
          fun i2 hi2 => hbd i2 (hperm.mem_iff.mp hi2), hsort, hgp⟩
      | stopped => simp [hw] at h
  | getRes =>
    simp only [Sys.step] at h
    cases hg : AsyncPredictor.get s.disp s.result_queue with
    | none => rw [hg] at h; simp at h
    | some p =>
      obtain ⟨y, d1, rest⟩ := p
      rw [hg] at h
      have h2 := Option.some.inj h
      subst h2
      have e2 : Sys.inFlightIds s =
          Sys.taskIds s.task_queue ++ (Sys.workerIds s.procs ++
            (s.result_queue.map Prod.fst ++
              s.disp.pending.map Prod.fst)) := by
        rw [Sys.inFlightIds]
        simp [List.append_assoc]
      have hndRB : ((s.disp.pending ++ s.result_queue).map Prod.fst).Nodup := by
        rw [List.map_append]
        have hnd2 := hnd
        rw [e2] at hnd2
        have hp2 : (Sys.taskIds s.task_queue ++ (Sys.workerIds s.procs ++
            (s.result_queue.map Prod.fst ++ s.disp.pending.map Prod.fst))).Perm
            ((s.disp.pending.map Prod.fst ++ s.result_queue.map Prod.fst) ++
              (Sys.taskIds s.task_queue ++ Sys.workerIds s.procs)) := by
          rw [← Multiset.coe_eq_coe]
          simp only [← Multiset.coe_add]
          abel
        exact (List.nodup_append.mp (hp2.nodup hnd2)).1
      have hlbB : ∀ i ∈ s.disp.pending.map Prod.fst, s.disp.get_idx < i := by
        intro i hi
        refine (hbd i ?_).1
        rw [Sys.inFlightIds]
        exact List.mem_append_right _ hi
      obtain ⟨y2, s2, rest2, hget, hput, hgidx, hpermstep, hs2⟩ :=
        AsyncPredictor.get_spec s.disp s.result_queue hsort hlbB hndRB
          (AsyncPredictor.get_some_mem hg)
      have h3 := Option.some.inj (hg.symm.trans hget)
      have hy : y = y2 := congrArg Prod.fst h3
      have hd1 : d1 = s2 := congrArg (fun z => z.2.1) h3
      have hre : rest = rest2 := congrArg (fun z => z.2.2) h3
      subst hy
      rw [← hd1] at hput hgidx hpermstep hs2
      rw [← hre] at hpermstep
      have hmids : ((s.disp.get_idx + 1) :: (d1.pending.map Prod.fst ++
          rest.map Prod.fst)).Perm (s.disp.pending.map Prod.fst ++
            s.result_queue.map Prod.fst) := by
        have hm := hpermstep.map Prod.fst
        simpa [List.map_append] using hm
      have e1 : Sys.inFlightIds
          { s with
            disp := d1
            result_queue := rest } =
          Sys.taskIds s.task_queue ++ (Sys.workerIds s.procs ++
            (rest.map Prod.fst ++ d1.pending.map Prod.fst)) := by
        rw [Sys.inFlightIds]
        simp [List.append_assoc]
      have hperm : ((s.disp.get_idx + 1) ::
          Sys.inFlightIds
            { s with
              disp := d1
              result_queue := rest }).Perm
          (Sys.inFlightIds s) := by
        rw [e1, e2]
        refine List.Perm.trans List.perm_middle.symm ?_
        refine List.Perm.append_left _ ?_
        refine List.Perm.trans List.perm_middle.symm ?_
        refine List.Perm.append_left _ ?_
        exact (List.perm_append_comm.cons _).trans
          (hmids.trans List.perm_append_comm)
      have hnn : ((s.disp.get_idx + 1) ::
          Sys.inFlightIds
            { s with
              disp := d1
              result_queue := rest }).Nodup :=
        hperm.symm.nodup hnd
      have hwant : s.disp.get_idx + 1 ∈ Sys.inFlightIds s := by
        have hm0 := AsyncPredictor.get_some_mem hg
        rw [List.map_append] at hm0
        rw [Sys.inFlightIds]
        rcases List.mem_append.mp hm0 with h4 | h4
        · exact List.mem_append_right _ h4
        · exact List.mem_append_left _ (List.mem_append_right _ h4)
      have hwantbd := hbd _ hwant
      refine ⟨(List.nodup_cons.mp hnn).2, ?_, hs2, ?_⟩
      · intro i hi
        have hio := hbd i (hperm.mem_iff.mp (List.mem_cons_of_mem _ hi))
        have hne : i ≠ s.disp.get_idx + 1 := fun hcontra =>
          (List.nodup_cons.mp hnn).1 (hcontra ▸ hi)
        show d1.get_idx < i ∧ i ≤ d1.put_idx
        rw [hgidx, hput]
        omega
      · show d1.get_idx ≤ d1.put_idx
        rw [hgidx, hput]
        omega
  | shutdown =>
    simp only [Sys.step] at h
    split at h
    · rename_i hle
      have h2 := Option.some.inj h
      subst h2
      have e1 : Sys.inFlightIds
          { s with task_queue := s.task_queue ++
            List.replicate s.procs.length Sys.PyTask.stopToken } =
          Sys.inFlightIds s := by
        rw [Sys.inFlightIds, Sys.inFlightIds]
        have e0 : Sys.taskIds (s.task_queue ++
            List.replicate s.procs.length Sys.PyTask.stopToken) =
            Sys.taskIds s.task_queue := by
          simp [Sys.taskIds, List.filterMap_append, List.filterMap_replicate]
        rw [e0]
      refine ⟨by rw [e1]; exact hnd, ?_, hsort, hgp⟩
      intro i hi
      rw [e1] at hi
      exact hbd i hi
    · simp at h

/-- C9 amended: in every reachable state of the system the Pending Result
Buffer holds at most `put_idx - get_idx` entries (one per
submitted-but-undelivered task).  It is not bounded by the pool size `K`
alone. -/
theorem Sys.reorder_buffer_bounded {α β : Type} (f : α → β) (num_gpus : Nat)
    (acts : List (Sys.SysAct α)) (s1 : Sys.SysState α β)
    (h : Sys.runSys f (Sys.sysInit num_gpus) acts = some s1) :
    s1.disp.pending.length ≤ s1.disp.put_idx - s1.disp.get_idx := by
  have hinv := Sys.runSys_preserve f
    (fun s => (Sys.inFlightIds s).Nodup ∧
      (∀ i ∈ Sys.inFlightIds s, s.disp.get_idx < i ∧ i ≤ s.disp.put_idx) ∧
      s.disp.pending.Sorted AsyncPredictor.keyLt ∧
      s.disp.get_idx ≤ s.disp.put_idx)
    (fun s a s2 hstep hi =>
      Sys.step_ids_inv f s a s2 hstep hi.1 hi.2.1 hi.2.2.1 hi.2.2.2)
    acts (Sys.sysInit num_gpus) s1 h
    (by
      refine ⟨?_, ?_, ?_, ?_⟩ <;>
        simp [Sys.inFlightIds, Sys.sysInit, Sys.taskIds, Sys.workerIds,
          List.filterMap_replicate])
  obtain ⟨hnd, hbd, hsort, hgp⟩ := hinv
  have hndB : (s1.disp.pending.map Prod.fst).Nodup :=
    AsyncPredictor.sorted_nodup_fst hsort
  have hsub : ∀ i ∈ s1.disp.pending.map Prod.fst,
      i ∈ List.range' (s1.disp.get_idx + 1)
        (s1.disp.put_idx - s1.disp.get_idx) := by
    intro i hi
    have hmem : i ∈ Sys.inFlightIds s1 := by
      rw [Sys.inFlightIds]
      exact List.mem_append_right _ hi
    have := hbd i hmem
    exact List.mem_range'_1.mpr ⟨by omega, by omega⟩
  calc s1.disp.pending.length
      = (s1.disp.pending.map Prod.fst).length := by simp
    _ = (s1.disp.pending.map Prod.fst).toFinset.card :=
        (List.toFinset_card_of_nodup hndB).symm
    _ ≤ (List.range' (s1.disp.get_idx + 1)
          (s1.disp.put_idx - s1.disp.get_idx)).toFinset.card := by
        refine Finset.card_le_card ?_
        intro i hi
        rw [List.mem_toFinset] at hi ⊢
        exact hsub i hi
    _ ≤ (List.range' (s1.disp.get_idx + 1)
          (s1.disp.put_idx - s1.disp.get_idx)).length :=
        List.toFinset_card_le _
    _ = s1.disp.put_idx - s1.disp.get_idx := by
        rw [List.length_range']

/-- Witness for the amended C9: the state reached by one `put` on a fresh
single-worker system. -/
theorem Sys.reorder_buffer_bounded_witness :
    (⟨3, 3, [Sys.PyTask.job 1 0], [], [Sys.WorkerState.idle],
        ⟨1, 0, []⟩⟩ : Sys.SysState Nat Nat).disp.pending.length ≤
      (⟨3, 3, [Sys.PyTask.job 1 0], [], [Sys.WorkerState.idle],
        ⟨1, 0, []⟩⟩ : Sys.SysState Nat Nat).disp.put_idx -
      (⟨3, 3, [Sys.PyTask.job 1 0], [], [Sys.WorkerState.idle],
        ⟨1, 0, []⟩⟩ : Sys.SysState Nat Nat).disp.get_idx :=
  Sys.reorder_buffer_bounded (fun n : Nat => n) 1 [Sys.SysAct.put 0] _
    (by decide)
